import Mathlib

/-!
Shallow embedding of the manga-reader upload / matching / storage / overlay
pipeline (`utils.js`, `file-manager.js`, `indexeddb-manager.js`,
`storage-manager.js`, `main.js`).

Modelling conventions:
* JavaScript strings are Lean `String`s; the handful of string operations the
  code uses (`toLowerCase`, `endsWith`, `split(sep).pop()`, regex-suffix
  stripping, character filtering) are defined below over `String.data`.
  `localeCompare` is modelled as lexicographic comparison of character codes.
* Binary blobs are abstracted to their byte size (`blob.size` is the only
  property the code reads); `JSON.parse` outcomes are modelled as
  `Option JsonVal` (with `none` for a parse error), and JavaScript values
  reachable from parsed JSON as the inductive `JsonVal`.
* Pixel coordinates in the overlay-separation engine are rationals `ℚ`
  (the code does exact arithmetic: additions, halving, min/max).
* `Array.prototype.sort` (stable, comparator-consistent) is modelled by
  `List.insertionSort`, which is stable and produces a comparator-sorted
  permutation, matching the ECMAScript specification of `sort`.
* Mutable instance state is passed explicitly; `Map` objects keyed by DOM
  elements become lists indexed in parallel with the block list; JavaScript
  plain objects used as dictionaries become association lists with
  overwrite-on-assign semantics.
-/

/-! ### Generic string helpers (models of the JS string primitives used) -/

/-- Model of `str.toLowerCase()` (ASCII case folding, which is all the code
relies on: extensions, base names, sanitized keys). -/
def lowerStr (s : String) : String := ⟨s.data.map Char.toLower⟩

/-- Model of `str.endsWith(suffix)`. -/
def strEndsWith (s suffix : String) : Bool := decide (suffix.data <:+ s.data)

/-- Drop the last `n` characters of a string (used to strip a matched
extension, as `replace(/...$/ , '')` does). -/
def strDropRight (s : String) (n : Nat) : String := ⟨s.data.take (s.data.length - n)⟩

/-- The last `n` characters of a string. -/
def strTakeRight (s : String) (n : Nat) : String := ⟨s.data.drop (s.data.length - n)⟩

/-- Model of `str.split(sep).pop()`: the substring after the last occurrence
of `sep` (the whole string when `sep` does not occur). -/
def lastSegment (s : String) (sep : Char) : String :=
  ⟨(s.data.reverse.takeWhile (fun c => decide (c ≠ sep))).reverse⟩

/-- Model of `str.includes(sub)`: substring containment. -/
def strContains (s sub : String) : Bool := decide (sub.data <:+: s.data)

/-- Model of `str.startsWith(sub)`. -/
def strStartsWith (s sub : String) : Bool := decide (sub.data <+: s.data)

/-! ### JavaScript values reachable from `JSON.parse` -/

/-- A JavaScript value produced by `JSON.parse` (numbers kept as integers:
the mokuro fields the code inspects are only tested for truthiness and array
length, never for fractional value). -/
inductive JsonVal where
  | null
  | bool (b : Bool)
  | num (n : Int)
  | str (s : String)
  | arr (xs : List JsonVal)
  | obj (fields : List (String × JsonVal))

/-- JavaScript truthiness of a parsed JSON value (`undefined` is handled at
use sites through `Option`). -/
def truthy : JsonVal → Bool
  | .null => false
  | .bool b => b
  | .num n => decide (n ≠ 0)
  | .str s => decide (s ≠ "")
  | .arr _ => true
  | .obj _ => true

/-- Property access `v[k]` on a parsed JSON value; `none` models
`undefined` (missing key, or access on a non-object). -/
def getField : JsonVal → String → Option JsonVal
  | .obj fields, k => (fields.find? (fun p => p.1 == k)).map (fun p => p.2)
  | _, _ => none

/-- Truthiness of `v[k]`, with `undefined` falsy. -/
def truthyField (v : JsonVal) (k : String) : Bool :=
  match getField v k with
  | some w => truthy w
  | none => false

/-- Model of `typeof v === 'object' && v !== null` (arrays are objects in
JavaScript). -/
def isObjLike : JsonVal → Bool
  | .obj _ => true
  | .arr _ => true
  | _ => false

/-- Key list of an object value (empty for non-objects); used to state
payload-shape properties. -/
def objKeys : JsonVal → List String
  | .obj fields => fields.map (fun p => p.1)
  | _ => []

/-! ### `utils.js`: `FileUtils` and `StringUtils` -/

namespace FileUtils

/-- Model of `FileUtils.isImage`: extension (text after the last dot of the
lowercased name, `split('.').pop()`) is one of the supported image types. -/
def isImage (filename : String) : Bool :=
  ["jpg", "jpeg", "png", "gif", "webp"].contains (lastSegment (lowerStr filename) '.')

/-- Model of `FileUtils.isJSON`: lowercased name ends with `.json`. -/
def isJSON (filename : String) : Bool :=
  strEndsWith (lowerStr filename) ".json"

/-- The dotted extensions recognized by the regex in `FileUtils.getBaseName`,
in the regex's alternation order. -/
def recognizedExts : List String :=
  [".jpg", ".jpeg", ".png", ".gif", ".webp", ".json"]

/-- Model of `FileUtils.getBaseName`:
`filename.replace(/\.(jpg|jpeg|png|gif|webp|json)$/i, '')`, i.e. drop a
trailing recognized extension, matched case-insensitively. The directory
path is NOT touched. -/
def getBaseName (filename : String) : String :=
  match recognizedExts.find? (fun ext => strEndsWith (lowerStr filename) ext) with
  | some ext => strDropRight filename ext.length
  | none => filename

end FileUtils

namespace StringUtils

/-- Model of `StringUtils.sanitize`:
`str.replace(/[^a-zA-Z0-9-_]/g, '_').toLowerCase()` (replace first, then
lower-case, exactly as the code composes them). -/
def sanitize (str : String) : String :=
  lowerStr ⟨str.data.map (fun c =>
    if ('a' ≤ c ∧ c ≤ 'z') ∨ ('A' ≤ c ∧ c ≤ 'Z') ∨ ('0' ≤ c ∧ c ≤ '9') ∨ c = '-' ∨ c = '_'
    then c else '_')⟩

end StringUtils

/-! ### `file-manager.js`: records and the matching pipeline -/

/-- An extracted image entry (`imageData` in `processImageFile`); the binary
blob is abstracted to its byte size, the only property the code reads. -/
structure ImageRec where
  filename : String
  size : Nat
  baseName : String
deriving DecidableEq, Repr

/-- An extracted translation entry (`translationData` in `processJSONFile`). -/
structure TransRec where
  filename : String
  data : JsonVal
  size : Nat
  baseName : String

/-- A matched page (one element of `currentFiles.matched`). -/
structure Page where
  image : ImageRec
  translation : Option TransRec
  hasTranslation : Bool
  pageIndex : Nat

namespace FileManager

/-- `this.supportedImageTypes`. -/
def supportedImageTypes : List String := ["jpg", "jpeg", "png", "gif", "webp"]

/-- `this.maxFileSize` (100 MiB). -/
def maxFileSize : Nat := 100 * 1024 * 1024

/-- Model of `cleanFilename`: `filename.split('/').pop().split('\\').pop()`. -/
def cleanFilename (filename : String) : String :=
  lastSegment (lastSegment filename '/') '\\'

/-- Model of `normalizeFilename`: lower-case, delete every character outside
`[a-z0-9]`, then strip leading zeros (`replace(/^0+/, '')`). -/
def normalizeFilename (filename : String) : String :=
  ⟨(((lowerStr filename).data.filter
      (fun c => decide (('a' ≤ c ∧ c ≤ 'z') ∨ ('0' ≤ c ∧ c ≤ '9')))).dropWhile
      (fun c => decide (c = '0')))⟩

/-- `match.padStart(10, '0')` for one digit run. -/
def padStart10 (run : List Char) : List Char :=
  List.replicate (10 - run.length) '0' ++ run

/-- Emit one accumulated digit run, padded (empty runs emit nothing). -/
def flushRun (run : List Char) : List Char :=
  if run.isEmpty then [] else padStart10 run

/-- Model of `str.replace(/(\d+)/g, m => m.padStart(10, '0'))`, accumulating
the current digit run in `run`. -/
def naturalKeyAux (run : List Char) : List Char → List Char
  | [] => flushRun run
  | c :: cs =>
    if c.isDigit then naturalKeyAux (run ++ [c]) cs
    else flushRun run ++ c :: naturalKeyAux [] cs

/-- The normalization applied to both arguments of `naturalSort`. -/
def naturalKey (s : String) : List Char := naturalKeyAux [] s.data

/-- Lexicographic comparison of character codes; the model of
`localeCompare`'s sign for the filenames at hand. -/
def lexCmp : List Char → List Char → Ordering
  | [], [] => .eq
  | [], _ :: _ => .lt
  | _ :: _, [] => .gt
  | a :: as, b :: bs =>
    if a.toNat < b.toNat then .lt
    else if b.toNat < a.toNat then .gt
    else lexCmp as bs

/-- Model of `naturalSort(a, b)` as the comparator's "does not come after"
relation: `naturalSort(a, b) <= 0`. -/
def naturalLe (a b : String) : Bool :=
  match lexCmp (naturalKey a) (naturalKey b) with
  | .gt => false
  | _ => true

/-- The order in which `matchFiles` sorts `currentFiles.images`. -/
def imageLe (a b : ImageRec) : Prop := naturalLe a.filename b.filename = true

instance : DecidableRel imageLe := fun a b => by unfold imageLe; infer_instance

/-- Model of `findMatchingTranslation`: `null` on a falsy base name, else the
first exact `baseName` match, else the first normalized (fuzzy) match. -/
def findMatchingTranslation (translations : List TransRec) (image : ImageRec) :
    Option TransRec :=
  if image.baseName = "" then none
  else
    match translations.find? (fun t => t.baseName == image.baseName) with
    | some t => some t
    | none =>
        translations.find? (fun t =>
          normalizeFilename t.baseName == normalizeFilename image.baseName)

/-- The loop body of `matchFiles`: build one `Page` per image, with
`pageIndex = matched.length` at push time (so indices count up from `i`). -/
def buildPages (translations : List TransRec) : Nat → List ImageRec → List Page
  | _, [] => []
  | i, img :: rest =>
    let t := findMatchingTranslation translations img
    { image := img, translation := t, hasTranslation := t.isSome, pageIndex := i }
      :: buildPages translations (i + 1) rest

/-- Model of `matchFiles`: sort the images with `naturalSort` (a stable,
comparator-consistent sort) and pair each with its matching translation. -/
def matchFiles (images : List ImageRec) (translations : List TransRec) :
    List Page :=
  buildPages translations 0 (images.insertionSort imageLe)

/-- Model of `isValidImage` on the blob's byte size (the `instanceof Blob`
check always passes for a decoded entry): `0 < size < 50 MiB`. -/
def isValidImage (blobSize : Nat) : Bool :=
  decide (0 < blobSize) && decide (blobSize < 50 * 1024 * 1024)

/-- Model of the per-block check inside `isValidMokuroJSON`: `block.box` is
an array of length 4 and `block.lines` is an array. -/
def isValidBlock (b : JsonVal) : Bool :=
  (match getField b "box" with
   | some (.arr xs) => xs.length == 4
   | _ => false)
  && (match getField b "lines" with
      | some (.arr _) => true
      | _ => false)

/-- Model of `isValidMokuroJSON`: a non-null object with truthy `version`,
`img_width`, `img_height` and a `blocks` array of valid blocks. -/
def isValidMokuroJSON (data : JsonVal) : Bool :=
  isObjLike data
  && truthyField data "version"
  && truthyField data "img_width"
  && truthyField data "img_height"
  && (match getField data "blocks" with
      | some (.arr blocks) => blocks.all isValidBlock
      | _ => false)

/-- Model of `shouldSkipFile`: hidden files, OS metadata, and unsupported
extensions are skipped. -/
def shouldSkipFile (filename : String) : Bool :=
  let name := lowerStr filename
  if strStartsWith name "." || strContains name "/." then true
  else if strContains name "__macosx" || strContains name "thumbs.db" then true
  else
    let ext := lastSegment name '.'
    !(supportedImageTypes.contains ext || ext == "json")

/-- One archive entry as JSZip presents it: its name, directory flag, the
byte size of its binary decode, the length of its text decode, and the
outcome of `JSON.parse` on that text (`none` models a parse error). -/
structure ZipEntry where
  name : String
  isDir : Bool
  blobSize : Nat
  textLength : Nat
  parsed : Option JsonVal

/-- Model of `processImageFile`: validate the blob, record the cleaned
filename and the base name of the ORIGINAL (possibly path-qualified) entry
name; `none` models the thrown-and-caught error for an invalid image. -/
def processImageFile (filename : String) (blobSize : Nat) : Option ImageRec :=
  if isValidImage blobSize then
    some { filename := cleanFilename filename
           size := blobSize
           baseName := FileUtils.getBaseName filename }
  else none

/-- Model of `processJSONFile`: parse failures and mokuro-shape failures
both yield `none` (silent skip); otherwise record the translation,
again taking the base name of the original entry name. -/
def processJSONFile (filename : String) (parsed : Option JsonVal)
    (textLength : Nat) : Option TransRec :=
  match parsed with
  | none => none
  | some j =>
    if isValidMokuroJSON j then
      some { filename := cleanFilename filename
             data := j
             size := textLength
             baseName := FileUtils.getBaseName filename }
    else none

/-- The per-entry step of `extractFiles`' loop: skip directories and
skippable names, dispatch on `FileUtils.isImage` / `FileUtils.isJSON`, and
append a record on success; every per-entry fault leaves the accumulator
unchanged. -/
def processEntry (acc : List ImageRec × List TransRec) (e : ZipEntry) :
    List ImageRec × List TransRec :=
  if e.isDir then acc
  else if shouldSkipFile e.name then acc
  else if FileUtils.isImage e.name then
    match processImageFile e.name e.blobSize with
    | some rec => (acc.1 ++ [rec], acc.2)
    | none => acc
  else if FileUtils.isJSON e.name then
    match processJSONFile e.name e.parsed e.textLength with
    | some rec => (acc.1, acc.2 ++ [rec])
    | none => acc
  else acc

/-- The two pipeline-level failures `extractFiles` can throw. -/
inductive ExtractError where
  | emptyArchive
  | noImagesFound
deriving DecidableEq, Repr

/-- Model of `extractFiles`: throw `EmptyArchive` on an empty entry list,
process every entry with per-entry fault isolation, then throw
`NoImagesFound` if no valid image was produced. -/
def extractFiles (entries : List ZipEntry) :
    Except ExtractError (List ImageRec × List TransRec) :=
  if entries.length = 0 then .error .emptyArchive
  else
    let res := entries.foldl processEntry ([], [])
    if res.1.length = 0 then .error .noImagesFound
    else .ok res

/-- The metadata of an uploaded `File` object that `validateZipFile`
inspects. -/
structure UploadFile where
  name : String
  mimeType : String
  size : Nat
deriving DecidableEq, Repr

/-- Model of `validateZipFile` (the `!file` guard is vacuous here: a file is
always supplied): wrong type, over-size, and zero-size each throw. -/
def validateZipFile (file : UploadFile) : Except String Unit :=
  if !(file.mimeType == "application/zip" || strEndsWith (lowerStr file.name) ".zip") then
    .error "Please upload a ZIP file"
  else if file.size > maxFileSize then
    .error "File too large. Maximum size is 100 MB"
  else if file.size == 0 then
    .error "ZIP file appears to be empty"
  else .ok ()

/-- Model of `validateFileStructure` on the current files: failure messages
for empty collections, else `hasTranslations` with the stats triple
(`totalPages`, `pagesWithTranslations`, `translationCoverage` =
`Math.round(with / total * 100)`). -/
def validateFileStructure (images : List ImageRec) (matched : List Page) :
    Except String (Bool × Nat × Nat × Int) :=
  if images.length = 0 then .error "No image files found"
  else if matched.length = 0 then .error "No pages could be processed"
  else
    .ok (matched.any (fun p => p.hasTranslation),
         matched.length,
         (matched.filter (fun p => p.hasTranslation)).length,
         round ((((matched.filter (fun p => p.hasTranslation)).length : ℚ) /
           (matched.length : ℚ)) * 100))

/-- The successful output of `processZipFile` (the returned object). -/
structure ProcessResult where
  images : List ImageRec
  translations : List TransRec
  matched : List Page
  totalSize : Nat

/-- Model of the `processZipFile` pipeline on a non-busy manager: validate
the uploaded file, extract (the archive decode is abstracted to the entry
list), match, validate the structure, and return the result object. -/
def processZipFile (file : UploadFile) (entries : List ZipEntry) :
    Except String ProcessResult :=
  match validateZipFile file with
  | .error e => .error e
  | .ok _ =>
    match extractFiles entries with
    | .error .emptyArchive => .error "ZIP file contains no files"
    | .error .noImagesFound => .error "No valid image files found in ZIP"
    | .ok (images, translations) =>
      let matched := matchFiles images translations
      match validateFileStructure (images.insertionSort imageLe) matched with
      | .error e => .error e
      | .ok _ =>
        .ok { images := images.insertionSort imageLe
              translations := translations
              matched := matched
              totalSize := file.size }

/-- An image record as extraction would build it for a path-free entry name
(used for concrete instances). -/
def exImage (s : String) : ImageRec :=
  { filename := s, size := 1, baseName := FileUtils.getBaseName s }

/-- A minimal valid mokuro document (used for concrete instances). -/
def exMokuroDoc : JsonVal :=
  .obj [("version", .str "0.1"), ("img_width", .num 800),
        ("img_height", .num 1200), ("blocks", .arr [])]

/-- A translation record as extraction would build it for a path-free entry
name carrying `exMokuroDoc`. -/
def exTrans (s : String) : TransRec :=
  { filename := s, data := exMokuroDoc, size := 2
    baseName := FileUtils.getBaseName s }

/-- An archive image entry with the given byte size (used for concrete
instances). -/
def exZipImage (s : String) (n : Nat) : ZipEntry :=
  { name := s, isDir := false, blobSize := n, textLength := 0, parsed := none }

/-- An archive JSON entry with the given parse outcome (used for concrete
instances). -/
def exZipJson (s : String) (parsed : Option JsonVal) : ZipEntry :=
  { name := s, isDir := false, blobSize := 0, textLength := 2, parsed := parsed }

/-- Five image entries of which one has a zero-byte blob (the spec's
extraction-resilience example). -/
def exEntriesOneBad : List ZipEntry :=
  [exZipImage "p1.jpg" 10, exZipImage "p2.jpg" 10, exZipImage "p3.jpg" 0,
   exZipImage "p4.jpg" 10, exZipImage "p5.jpg" 10]

/-- One good image plus three JSON entries of which one fails to parse
(the spec's translation-resilience example). -/
def exEntriesJson : List ZipEntry :=
  [exZipImage "p1.jpg" 10, exZipJson "p1.json" (some exMokuroDoc),
   exZipJson "p2.json" none, exZipJson "p3.json" (some exMokuroDoc)]

/-- The matching policy of `findMatchingTranslation` as the spec states it:
when an exact `baseName` match exists the image is paired with the first
such translation; when none exists, the result is `some t` exactly for the
first translation `t` whose normalized baseName equals the image's
normalized baseName. -/
def matchingPolicy (translations : List TransRec) (image : ImageRec) : Prop :=
  ((∃ t ∈ translations, t.baseName = image.baseName) →
    ∃ t pre post, findMatchingTranslation translations image = some t ∧
      t.baseName = image.baseName ∧ translations = pre ++ t :: post ∧
      ∀ u ∈ pre, u.baseName ≠ image.baseName)
  ∧ ((∀ t ∈ translations, t.baseName ≠ image.baseName) →
    ∀ t, findMatchingTranslation translations image = some t ↔
      (normalizeFilename t.baseName = normalizeFilename image.baseName ∧
       ∃ pre post, translations = pre ++ t :: post ∧
         ∀ u ∈ pre,
           normalizeFilename u.baseName ≠ normalizeFilename image.baseName))

end FileManager

/-! ### Association-list dictionaries

JavaScript plain objects used as dictionaries (`progress[key] = rec`) and
the keyed IndexedDB object store (`store.put`, keyPath `name`) are both
modelled as association lists with overwrite-on-assign semantics. -/

/-- Key lookup: the value at the first matching key. -/
def objGet (l : List (String × α)) (k : String) : Option α :=
  (l.find? (fun p => p.1 == k)).map (fun p => p.2)

/-- Key assignment: overwrite in place when the key exists, append
otherwise (JS object / IndexedDB `put` semantics). -/
def objAssign (l : List (String × α)) (k : String) (v : α) : List (String × α) :=
  if l.any (fun p => p.1 == k) then
    l.map (fun p => if p.1 == k then (k, v) else p)
  else l ++ [(k, v)]

/-- Key deletion (IndexedDB `delete`, JS `delete obj[key]`). -/
def objDelete (l : List (String × α)) (k : String) : List (String × α) :=
  l.filter (fun p => !(p.1 == k))

/-! ### Persisted payload values

The values the app hands to IndexedDB are plain objects whose leaves are the
pipeline's records; this inductive captures their shape (in particular their
key sets) without duplicating the record types. -/

/-- A structured-clone value stored in IndexedDB. -/
inductive PayloadVal where
  | bool (b : Bool)
  | num (n : Nat)
  | str (s : String)
  | imageList (l : List ImageRec)
  | transList (l : List TransRec)
  | pageList (l : List Page)
  | obj (fields : List (String × PayloadVal))

/-- Key list of a payload object (empty for non-objects). -/
def pKeys : PayloadVal → List String
  | .obj fields => fields.map (fun p => p.1)
  | _ => []

/-- Field access on a payload object. -/
def pField (v : PayloadVal) (k : String) : Option PayloadVal :=
  match v with
  | .obj fields => objGet fields k
  | _ => none

/-- The object literal `processZipFile` returns (`{success, images,
translations, matched, stats}`), serialized with its key order. -/
def processZipResultObj (r : FileManager.ProcessResult) : PayloadVal :=
  .obj [("success", .bool true),
        ("images", .imageList r.images),
        ("translations", .transList r.translations),
        ("matched", .pageList r.matched),
        ("stats", .obj [("imageCount", .num r.images.length),
                        ("translationCount", .num r.translations.length),
                        ("matchedCount", .num r.matched.length),
                        ("totalSize", .num r.totalSize)])]

/-! ### `indexeddb-manager.js` -/

namespace IndexedDBManager

/-- The record `storeSeries` builds and `store.put`s (keyPath `name`). -/
structure SeriesData where
  name : String
  files : PayloadVal
  uploadDate : Nat
  expiresAt : Nat

/-- Serialization of `SeriesData` as the object literal in `storeSeries`,
with its key order. -/
def SeriesData.toObj (d : SeriesData) : PayloadVal :=
  .obj [("name", .str d.name),
        ("files", d.files),
        ("uploadDate", .num d.uploadDate),
        ("expiresAt", .num d.expiresAt)]

/-- The `seriesData` value built by `storeSeries` at time `now`
(`expiresAt = now + 24 * 60 * 60 * 1000`). -/
def mkSeriesData (name : String) (files : PayloadVal) (now : Nat) : SeriesData :=
  { name := name
    files := files
    uploadDate := now
    expiresAt := now + 24 * 60 * 60 * 1000 }

/-- Model of `storeSeries`: build the payload and `put` it into the store
keyed by `name` (the promise resolves only on transaction completion, which
sequential modelling makes implicit). -/
def storeSeries (db : List (String × SeriesData)) (name : String)
    (files : PayloadVal) (now : Nat) : List (String × SeriesData) :=
  objAssign db name (mkSeriesData name files now)

/-- Model of `getSeries` at time `now`: a hit whose `expiresAt` has passed
is deleted and reported as a miss; otherwise the stored record is returned
unchanged. Returns the result together with the resulting store. -/
def getSeries (db : List (String × SeriesData)) (name : String) (now : Nat) :
    Option SeriesData × List (String × SeriesData) :=
  match objGet db name with
  | some r => if r.expiresAt < now then (none, objDelete db name) else (some r, db)
  | none => (none, db)

end IndexedDBManager

/-- The payload persisted by `MangaReaderApp.startReading`: it hands the
WHOLE `processZipFile` result (`this.currentSeriesData`) to
`indexedDBManager.storeSeries` as `files`. -/
def startReadingStoredData (seriesName : String) (r : FileManager.ProcessResult)
    (now : Nat) : IndexedDBManager.SeriesData :=
  IndexedDBManager.mkSeriesData seriesName (processZipResultObj r) now

/-! ### `storage-manager.js`: reading progress -/

namespace StorageManager

/-- The record `saveProgress` stores for one series. -/
structure ProgressRec where
  originalName : String
  currentPage : Nat
  totalPages : Nat
  lastRead : Nat
  percentage : Int
deriving DecidableEq, Repr

/-- The progress record built in `saveProgress`
(`percentage = totalPages > 0 ? Math.round(currentPage/totalPages*100) : 0`). -/
def mkProgressRecord (seriesName : String) (currentPage totalPages lastRead : Nat) :
    ProgressRec :=
  { originalName := seriesName
    currentPage := currentPage
    totalPages := totalPages
    lastRead := lastRead
    percentage :=
      if 0 < totalPages then round (((currentPage : ℚ) / (totalPages : ℚ)) * 100)
      else 0 }

/-- Model of `saveProgress`: a falsy series name is rejected; otherwise the
record is stored in the progress object under the SANITIZED name. -/
def saveProgress (store : List (String × ProgressRec)) (seriesName : String)
    (currentPage totalPages lastRead : Nat) : List (String × ProgressRec) :=
  if seriesName = "" then store
  else objAssign store (StringUtils.sanitize seriesName)
    (mkProgressRecord seriesName currentPage totalPages lastRead)

/-- Model of `getProgress`: look up the sanitized name. -/
def getProgress (store : List (String × ProgressRec)) (seriesName : String) :
    Option ProgressRec :=
  if seriesName = "" then none
  else objGet store (StringUtils.sanitize seriesName)

end StorageManager

/-! ### `storage-manager.js`: the overlay separation engine

Rendered translation blocks are modelled by their style position `(x, y)`
(the `style.left` / `style.top` the code reads and writes) and their fixed
rendered size `(w, h)`; `getBoundingClientRect` of a block positioned inside
the overlay returns the overlay origin plus the style position. -/

/-- One rendered translation block. -/
structure Blk where
  x : ℚ
  y : ℚ
  w : ℚ
  h : ℚ
deriving DecidableEq, Repr

/-- A bounding client rect. -/
structure Rect where
  left : ℚ
  top : ℚ
  width : ℚ
  height : ℚ

/-- Right edge of a rect. -/
def Rect.right (r : Rect) : ℚ := r.left + r.width

/-- Bottom edge of a rect. -/
def Rect.bottom (r : Rect) : ℚ := r.top + r.height

/-- The overlay container's bounding rect. -/
structure OvRect where
  left : ℚ
  top : ℚ
  width : ℚ
  height : ℚ
deriving DecidableEq, Repr

/-- `getBoundingClientRect` of a block absolutely positioned in the
overlay. -/
def blockRect (ov : OvRect) (b : Blk) : Rect :=
  { left := ov.left + b.x, top := ov.top + b.y, width := b.w, height := b.h }

namespace MangaReader

/-- Model of `_rectsOverlap`. -/
def rectsOverlap (a b : Rect) : Bool :=
  !(decide (a.right ≤ b.left) || decide (a.left ≥ b.right) ||
    decide (a.bottom ≤ b.top) || decide (a.top ≥ b.bottom))

/-- Model of `_nudgeWithinOverlay`: move by `(dx, dy)` and clamp the style
position inside the overlay with a 4px margin. -/
def nudgeWithinOverlay (ov : OvRect) (b : Blk) (dx dy : ℚ) : Blk :=
  let left := b.x + dx
  let top := b.y + dy
  let minLeft : ℚ := 4
  let minTop : ℚ := 4
  let maxLeft : ℚ := ov.width - b.w - 4
  let maxTop : ℚ := ov.height - b.h - 4
  { b with x := max minLeft (min maxLeft left), y := max minTop (min maxTop top) }

/-- The mutable state of one `applySeparation` run: block positions, the
`movedTotals` map (requested L1 movement per element), the lazily saved
`_originalPositions`, and the current sweep's `any` flag. The `actual`
field is pure instrumentation (not in the code): it accumulates the L1
distance each element REALLY travels, so that the displacement budget can
be stated about true movement. -/
structure SepState where
  blocks : List Blk
  moved : List ℚ
  actual : List ℚ
  origs : List (Option (ℚ × ℚ))
  anyMoved : Bool

/-- Horizontal penetration depth of two overlapping rects. -/
def penetrationX (ra rb : Rect) : ℚ :=
  max 0 (min ra.right rb.right - max ra.left rb.left)

/-- Vertical penetration depth of two overlapping rects. -/
def penetrationY (ra rb : Rect) : ℚ :=
  max 0 (min ra.bottom rb.bottom - max ra.top rb.top)

/-- Model of `_ensureSavedOriginal` for the element at index `k`. -/
def ensureSavedOriginal (s : SepState) (k : Nat) : SepState :=
  match s.origs.getD k none with
  | some _ => s
  | none =>
    match s.blocks[k]? with
    | some b => { s with origs := s.origs.set k (some (b.x, b.y)) }
    | none => s

/-- Add `d` to entry `k` of a total-movement list. -/
def bumpAt (l : List ℚ) (k : Nat) (d : ℚ) : List ℚ :=
  l.set k (l.getD k 0 + d)

/-- The step size for the pair `(i, j)` with rects `a`, `b`:
`needed = min(pen_on_chosen_axis + padding, maxPairStep)` halved
(`step = needed / 2`, split across both elements), capped by the remaining
per-element 24px budgets of both members. -/
def pairStepSize (ov : OvRect) (s : SepState) (i j : Nat) (a b : Blk) : ℚ :=
  let ra := blockRect ov a
  let rb := blockRect ov b
  let penX := penetrationX ra rb
  let penY := penetrationY ra rb
  let needed := min ((if penX ≤ penY then penX else penY) + 2) 6
  let step0 := needed / 2
  let capA := max 0 (24 - s.moved.getD i 0)
  let capB := max 0 (24 - s.moved.getD j 0)
  min step0 (min capA capB)

/-- The mutation performed for one pushed pair: save both originals lazily,
nudge both members (clamped), add the REQUESTED step to both `movedTotals`
entries, the ACTUAL clamped travel to the instrumentation, and raise the
sweep's `any` flag. -/
def applyPush (ov : OvRect) (s : SepState) (i j : Nat) (a b : Blk)
    (dxa dya dxb dyb step : ℚ) : SepState :=
  let s1 := ensureSavedOriginal (ensureSavedOriginal s i) j
  let a1 := nudgeWithinOverlay ov a dxa dya
  let b1 := nudgeWithinOverlay ov b dxb dyb
  { blocks := (s1.blocks.set i a1).set j b1
    moved := bumpAt (bumpAt s1.moved i step) j step
    actual := bumpAt (bumpAt s1.actual i (|a1.x - a.x| + |a1.y - a.y|)) j
      (|b1.x - b.x| + |b1.y - b.y|)
    origs := s1.origs
    anyMoved := true }

/-- The body of `applySeparation`'s inner double loop for the pair
`(i, j)`: skip non-overlapping pairs, choose the axis of smaller
penetration (`penX <= penY` picks x), cap the pair step at 6px and by the
24px per-element budget (skipping exhausted pairs), and push the two blocks
apart by half the step each along the chosen axis, away from each other's
center. -/
def processPair (ov : OvRect) (s : SepState) (i j : Nat) : SepState :=
  match s.blocks[i]?, s.blocks[j]? with
  | some a, some b =>
    let ra := blockRect ov a
    let rb := blockRect ov b
    if rectsOverlap ra rb then
      let step := pairStepSize ov s i j a b
      if step ≤ 0 then s
      else
        if penetrationX ra rb ≤ penetrationY ra rb then
          let dir : ℚ := if rb.left + rb.width / 2 ≥ ra.left + ra.width / 2 then 1 else -1
          applyPush ov s i j a b (-dir * step) 0 (dir * step) 0 step
        else
          let dir : ℚ := if rb.top + rb.height / 2 ≥ ra.top + ra.height / 2 then 1 else -1
          applyPush ov s i j a b 0 (-dir * step) 0 (dir * step) step
    else s
  | _, _ => s

/-- The pairs `(i, j)` with `i < j < n`, in the double loop's order
(`range' (i+1) (n-i-1)` is the inner loop `j = i+1 .. n-1`). -/
def pairsUpTo (n : Nat) : List (Nat × Nat) :=
  (List.range n).flatMap
    (fun i => (List.range' (i + 1) (n - (i + 1))).map (fun j => (i, j)))

/-- One sweep of `applySeparation`: reset the sweep's `any` flag and
process every pair in order. -/
def sweep (ov : OvRect) (s : SepState) : SepState :=
  (pairsUpTo s.blocks.length).foldl (fun st p => processPair ov st p.1 p.2)
    { s with anyMoved := false }

/-- The iteration loop of `applySeparation`: up to `n` sweeps, breaking as
soon as a sweep produces no displacement. -/
def sepLoop (ov : OvRect) : Nat → SepState → SepState
  | 0, s => s
  | n + 1, s =>
    let s1 := sweep ov s
    if s1.anyMoved then sepLoop ov n s1 else s1

/-- The persistent overlay state across `applySeparation` /
`restoreOriginalPositions`: rendered block positions and the
`_originalPositions` map (a list parallel to the blocks). -/
structure OverlayState where
  blocks : List Blk
  origs : List (Option (ℚ × ℚ))
deriving DecidableEq, Repr

/-- Fresh run state for one `applySeparation` call (`movedTotals` is a new
empty map each call). -/
def initSep (p : OverlayState) : SepState :=
  { blocks := p.blocks
    moved := List.replicate p.blocks.length 0
    actual := List.replicate p.blocks.length 0
    origs := p.origs
    anyMoved := false }

/-- Model of `applySeparation`: no-op on an empty block list, else up to 10
sweeps over a fresh run state. -/
def applySeparation (ov : OvRect) (p : OverlayState) : OverlayState :=
  if p.blocks.isEmpty then p
  else
    let s := sepLoop ov 10 (initSep p)
    { blocks := s.blocks, origs := s.origs }

/-- Restore one block from its saved original position, if any. -/
def restoreBlk (b : Blk) (o : Option (ℚ × ℚ)) : Blk :=
  match o with
  | some q => { b with x := q.1, y := q.2 }
  | none => b

/-- Walk the block list next to the saved-originals list, restoring the
saved ones. -/
def restoreBlocks : List Blk → List (Option (ℚ × ℚ)) → List Blk
  | [], _ => []
  | b :: bs, [] => b :: restoreBlocks bs []
  | b :: bs, o :: os => restoreBlk b o :: restoreBlocks bs os

/-- Model of `restoreOriginalPositions`: every element with a saved
original gets its saved `left` / `top` back, and the map is cleared. -/
def restoreOriginalPositions (p : OverlayState) : OverlayState :=
  { blocks := restoreBlocks p.blocks p.origs
    origs := List.replicate p.blocks.length none }

/-- A block lies inside the overlay with the algorithm's 4px margin (and in
particular the margin band is feasible for it). -/
def blkInBounds (ov : OvRect) (b : Blk) : Bool :=
  decide (4 ≤ b.x) && decide (b.x ≤ ov.width - b.w - 4) &&
  decide (4 ≤ b.y) && decide (b.y ≤ ov.height - b.h - 4)

/-- All blocks in bounds. -/
def allInBounds (ov : OvRect) (blocks : List Blk) : Bool :=
  blocks.all (blkInBounds ov)

/-- Default block for positional (`getD`) indexing in statements. -/
def blkDefault : Blk := ⟨0, 0, 0, 0⟩

/-- Run invariant of one `applySeparation` call over initial blocks `init`:
sizes are preserved, every block stays inside the overlay margin band, each
element's true travelled distance is bounded by its instrumented total,
which is bounded by its `movedTotals` entry, which never exceeds the 24px
budget. -/
def sepInv (ov : OvRect) (init : List Blk) (s : SepState) : Prop :=
  s.blocks.length = init.length
  ∧ s.moved.length = init.length
  ∧ s.actual.length = init.length
  ∧ ∀ k, k < init.length →
      ((s.blocks.getD k blkDefault).w = (init.getD k blkDefault).w
       ∧ (s.blocks.getD k blkDefault).h = (init.getD k blkDefault).h
       ∧ blkInBounds ov (s.blocks.getD k blkDefault) = true
       ∧ |(s.blocks.getD k blkDefault).x - (init.getD k blkDefault).x| +
           |(s.blocks.getD k blkDefault).y - (init.getD k blkDefault).y| ≤
           s.actual.getD k 0
       ∧ s.actual.getD k 0 ≤ s.moved.getD k 0
       ∧ s.moved.getD k 0 ≤ 24)

/-- Bookkeeping invariant of the lazily saved `_originalPositions` over
initial blocks `init`: an element with no saved original has never moved
(it still IS its initial block), and every saved original records the
initial position; block sizes never change. -/
def origInv (init : List Blk) (s : SepState) : Prop :=
  s.blocks.length = init.length
  ∧ s.origs.length = init.length
  ∧ ∀ k, k < init.length →
      ((s.blocks.getD k blkDefault).w = (init.getD k blkDefault).w
       ∧ (s.blocks.getD k blkDefault).h = (init.getD k blkDefault).h
       ∧ (s.origs.getD k none = none →
            s.blocks.getD k blkDefault = init.getD k blkDefault)
       ∧ ∀ q, s.origs.getD k none = some q →
            q = ((init.getD k blkDefault).x, (init.getD k blkDefault).y))

/-- The overlay rect used in concrete separation instances. -/
def exOv : OvRect := ⟨0, 0, 100, 100⟩

/-- Two equal-size overlapping blocks inside `exOv`, with no saved
originals (used for concrete instances). -/
def exOverlay : OverlayState :=
  { blocks := [⟨20, 20, 10, 10⟩, ⟨24, 20, 10, 10⟩], origs := [none, none] }

/-- Two overlapping blocks rendered OUTSIDE the overlay's 4px margin band
on the x axis (the layout step can emit negative style positions for
blocks near the image edge). -/
def exOverlayOffX : OverlayState :=
  { blocks := [⟨-50, 20, 10, 10⟩, ⟨-46, 20, 10, 10⟩], origs := [none, none] }

/-- Two overlapping blocks rendered outside the margin band on the y axis,
overlapping more deeply vertically (so a push chooses the x axis). -/
def exOverlayOffY : OverlayState :=
  { blocks := [⟨20, -50, 10, 10⟩, ⟨24, -50, 10, 10⟩], origs := [none, none] }

/-- The separation-bounds property of one `applySeparation` run: (1) the
run is some `k ≤ 10` sweeps, with `k < 10` only when the `k`-th sweep
displaced nothing; (2) no element ends more than 24px (L1) from where it
started; (3) the instrumented cumulative displacement also respects the
24px budget; (4) one pair processing moves each member at most 3px (at most
6px of separation per pair per sweep, split half to each member); (5) the
push happens along the axis of smaller penetration: the other coordinate of
every block is untouched. -/
def separationClaim (ov : OvRect) (p : OverlayState) : Prop :=
  (p.blocks ≠ [] → ∃ k, k ≤ 10 ∧
    applySeparation ov p =
      { blocks := ((sweep ov)^[k] (initSep p)).blocks
        origs := ((sweep ov)^[k] (initSep p)).origs } ∧
    (k = 10 ∨ ((sweep ov)^[k] (initSep p)).anyMoved = false))
  ∧ (∀ k, k < p.blocks.length →
      |((applySeparation ov p).blocks.getD k blkDefault).x -
        (p.blocks.getD k blkDefault).x| +
      |((applySeparation ov p).blocks.getD k blkDefault).y -
        (p.blocks.getD k blkDefault).y| ≤ 24)
  ∧ (∀ k, k < p.blocks.length →
      (sepLoop ov 10 (initSep p)).actual.getD k 0 ≤ 24)
  ∧ (∀ (s : SepState) (i j k : Nat), allInBounds ov s.blocks = true →
      |((processPair ov s i j).blocks.getD k blkDefault).x -
        (s.blocks.getD k blkDefault).x| +
      |((processPair ov s i j).blocks.getD k blkDefault).y -
        (s.blocks.getD k blkDefault).y| ≤ 3)
  ∧ (∀ (s : SepState) (i j : Nat) (a b : Blk),
      allInBounds ov s.blocks = true →
      s.blocks[i]? = some a → s.blocks[j]? = some b →
      ((penetrationX (blockRect ov a) (blockRect ov b) ≤
          penetrationY (blockRect ov a) (blockRect ov b) →
        ∀ k, ((processPair ov s i j).blocks.getD k blkDefault).y =
          (s.blocks.getD k blkDefault).y)
       ∧ (penetrationY (blockRect ov a) (blockRect ov b) <
           penetrationX (blockRect ov a) (blockRect ov b) →
        ∀ k, ((processPair ov s i j).blocks.getD k blkDefault).x =
          (s.blocks.getD k blkDefault).x)))

/-- The restore property of disabling separation after one
`applySeparation` run: every block is back at exactly its pre-separation
position, the saved-originals map is cleared, and blocks the run never
moved were not displaced by it in the first place. -/
def restoreClaim (ov : OvRect) (p : OverlayState) : Prop :=
  (restoreOriginalPositions (applySeparation ov p)).blocks = p.blocks
  ∧ (restoreOriginalPositions (applySeparation ov p)).origs =
      List.replicate p.blocks.length none
  ∧ (∀ k, k < p.blocks.length →
      (applySeparation ov p).origs.getD k none = none →
      (applySeparation ov p).blocks.getD k blkDefault =
        p.blocks.getD k blkDefault)

end MangaReader

/-! ## Theorems -/

/-! ### Comparator lemmas for the natural sort -/

namespace FileManager

theorem lexCmp_nil_not_gt (z : List Char) : lexCmp [] z ≠ .gt := by
  cases z <;> simp [lexCmp]

theorem lexCmp_cons_not_gt_iff (a b : Char) (as bs : List Char) :
    lexCmp (a :: as) (b :: bs) ≠ .gt ↔
      (a.toNat < b.toNat ∨ (a.toNat = b.toNat ∧ lexCmp as bs ≠ .gt)) := by
  rcases Nat.lt_trichotomy a.toNat b.toNat with h | h | h
  · simp [lexCmp, h]
  · have h1 : ¬ a.toNat < b.toNat := by omega
    have h2 : ¬ b.toNat < a.toNat := by omega
    simp [lexCmp, h1, h2, h]
  · have h1 : ¬ a.toNat < b.toNat := by omega
    simp only [lexCmp, if_neg h1, if_pos h]
    constructor
    · intro hc; exact absurd rfl hc
    · intro hc
      rcases hc with hc | ⟨hc, _⟩ <;> omega

theorem lexCmp_not_gt_trans :
    ∀ x y z : List Char, lexCmp x y ≠ .gt → lexCmp y z ≠ .gt → lexCmp x z ≠ .gt := by
  intro x
  induction x with
  | nil => intro y z _ _; exact lexCmp_nil_not_gt z
  | cons a as ih =>
    intro y z h1 h2
    cases y with
    | nil => simp [lexCmp] at h1
    | cons b bs =>
      cases z with
      | nil => simp [lexCmp] at h2
      | cons c cs =>
        rw [lexCmp_cons_not_gt_iff] at h1 h2 ⊢
        rcases h1 with h1 | ⟨h1, h1'⟩ <;> rcases h2 with h2 | ⟨h2, h2'⟩
        · exact Or.inl (by omega)
        · exact Or.inl (by omega)
        · exact Or.inl (by omega)
        · exact Or.inr ⟨by omega, ih bs cs h1' h2'⟩

theorem lexCmp_not_gt_total :
    ∀ x y : List Char, lexCmp x y ≠ .gt ∨ lexCmp y x ≠ .gt := by
  intro x
  induction x with
  | nil => intro y; exact Or.inl (lexCmp_nil_not_gt y)
  | cons a as ih =>
    intro y
    cases y with
    | nil => exact Or.inr (lexCmp_nil_not_gt (a :: as))
    | cons b bs =>
      rcases Nat.lt_trichotomy a.toNat b.toNat with h | h | h
      · exact Or.inl ((lexCmp_cons_not_gt_iff a b as bs).mpr (Or.inl h))
      · rcases ih bs with h' | h'
        · exact Or.inl ((lexCmp_cons_not_gt_iff a b as bs).mpr (Or.inr ⟨h, h'⟩))
        · exact Or.inr ((lexCmp_cons_not_gt_iff b a bs as).mpr (Or.inr ⟨h.symm, h'⟩))
      · exact Or.inr ((lexCmp_cons_not_gt_iff b a bs as).mpr (Or.inl h))

theorem naturalLe_eq_true_iff (a b : String) :
    naturalLe a b = true ↔ lexCmp (naturalKey a) (naturalKey b) ≠ .gt := by
  unfold naturalLe
  cases h : lexCmp (naturalKey a) (naturalKey b) <;> simp [h]

theorem imageLe_trans : ∀ a b c : ImageRec, imageLe a b → imageLe b c → imageLe a c := by
  intro a b c hab hbc
  unfold imageLe at hab hbc ⊢
  rw [naturalLe_eq_true_iff] at hab hbc ⊢
  exact lexCmp_not_gt_trans _ _ _ hab hbc

theorem imageLe_total : ∀ a b : ImageRec, imageLe a b ∨ imageLe b a := by
  intro a b
  unfold imageLe
  rw [naturalLe_eq_true_iff, naturalLe_eq_true_iff]
  exact lexCmp_not_gt_total _ _

theorem buildPages_length (ts : List TransRec) :
    ∀ (i : Nat) (l : List ImageRec), (buildPages ts i l).length = l.length := by
  intro i l
  induction l generalizing i with
  | nil => rfl
  | cons x xs ih => simp [buildPages, ih]

theorem buildPages_map_pageIndex (ts : List TransRec) :
    ∀ (i : Nat) (l : List ImageRec),
      (buildPages ts i l).map Page.pageIndex = List.range' i l.length := by
  intro i l
  induction l generalizing i with
  | nil => rfl
  | cons x xs ih => simp [buildPages, List.range', ih]

theorem buildPages_map_image (ts : List TransRec) :
    ∀ (i : Nat) (l : List ImageRec), (buildPages ts i l).map Page.image = l := by
  intro i l
  induction l generalizing i with
  | nil => rfl
  | cons x xs ih => simp [buildPages, ih]

end FileManager

/-! ### C1: the matcher's output shape and order -/

/-- C1: For every collection of extracted images and translations,
`matchFiles` produces exactly one `Page` per input image (same length, and
the pages' images are a permutation of the input), ordered by the natural
sort of the image filenames (digit runs zero-padded and compared
lexicographically, so `page1` before `page2` before `page10` as the
concrete conjunct shows), and the assigned `pageIndex` values are exactly
`0..n-1` in sequence order. -/
theorem matchFiles_one_page_per_image
    (images : List ImageRec) (translations : List TransRec) :
    (FileManager.matchFiles images translations).length = images.length
    ∧ (FileManager.matchFiles images translations).map Page.pageIndex =
        List.range images.length
    ∧ ((FileManager.matchFiles images translations).map Page.image).Perm images
    ∧ ((FileManager.matchFiles images translations).map Page.image).Pairwise
        FileManager.imageLe
    ∧ (FileManager.matchFiles
        [FileManager.exImage "page2.jpg", FileManager.exImage "page10.jpg",
         FileManager.exImage "page1.jpg"] []).map (fun p => p.image.filename) =
        ["page1.jpg", "page2.jpg", "page10.jpg"] := by
  refine ⟨?_, ?_, ?_, ?_, ?_⟩
  · unfold FileManager.matchFiles
    rw [FileManager.buildPages_length, List.length_insertionSort]
  · unfold FileManager.matchFiles
    rw [FileManager.buildPages_map_pageIndex, List.length_insertionSort,
      List.range_eq_range']
  · unfold FileManager.matchFiles
    rw [FileManager.buildPages_map_image]
    exact List.perm_insertionSort _ _
  · unfold FileManager.matchFiles
    rw [FileManager.buildPages_map_image]
    letI : IsTotal ImageRec FileManager.imageLe := ⟨FileManager.imageLe_total⟩
    letI : IsTrans ImageRec FileManager.imageLe := ⟨FileManager.imageLe_trans⟩
    exact List.sorted_insertionSort FileManager.imageLe images
  · decide

/-! ### C2: baseName keeps the directory path -/

theorem strMk_append (a b : List Char) : (⟨a⟩ : String) ++ ⟨b⟩ = ⟨a ++ b⟩ := rfl

theorem strDropRight_append_takeRight (s : String) (n : Nat) :
    strDropRight s n ++ strTakeRight s n = s := by
  cases s with
  | mk data =>
    unfold strDropRight strTakeRight
    rw [strMk_append, List.take_append_drop]

theorem lowerStr_strTakeRight_of_suffix (s ext : String)
    (h : ext.data <:+ (lowerStr s).data) :
    lowerStr (strTakeRight s ext.length) = ext := by
  obtain ⟨t, ht⟩ := h
  have hlen : t.length + ext.data.length = s.data.length := by
    have hl := congrArg List.length ht
    simpa [lowerStr] using hl
  apply String.ext
  show (s.data.drop (s.data.length - ext.data.length)).map Char.toLower = ext.data
  rw [List.map_drop, show (s.data.map Char.toLower) = t ++ ext.data from by
    simpa [lowerStr] using ht.symm]
  have hn : s.data.length - ext.data.length = t.length := by omega
  rw [hn, List.drop_left]

/-- C2 counterexample: the claim says entry `vol1/page_01.jpg` gets baseName
`page_01`, but the recorded baseName retains the directory path: it is
`vol1/page_01` (only the `filename` field is path-stripped). -/
theorem baseName_keeps_path_counterexample :
    (FileManager.processImageFile "vol1/page_01.jpg" 100).map ImageRec.baseName =
      some "vol1/page_01"
    ∧ (FileManager.processImageFile "vol1/page_01.jpg" 100).map ImageRec.baseName ≠
      some "page_01"
    ∧ (FileManager.processImageFile "vol1/page_01.jpg" 100).map ImageRec.filename =
      some "page_01.jpg" := by
  refine ⟨by decide, by decide, by decide⟩

theorem processImageFile_eq_some {name : String} {sz : Nat} {rec : ImageRec}
    (h : FileManager.processImageFile name sz = some rec) :
    rec = { filename := FileManager.cleanFilename name, size := sz
            baseName := FileUtils.getBaseName name } := by
  unfold FileManager.processImageFile at h
  split at h
  · exact (Option.some.inj h).symm
  · cases h

theorem processJSONFile_eq_some {name : String} {parsed : Option JsonVal}
    {tl : Nat} {rec : TransRec}
    (h : FileManager.processJSONFile name parsed tl = some rec) :
    rec.baseName = FileUtils.getBaseName name ∧
    rec.filename = FileManager.cleanFilename name := by
  unfold FileManager.processJSONFile at h
  cases parsed with
  | none => cases h
  | some j =>
    simp only at h
    split at h
    · cases Option.some.inj h; exact ⟨rfl, rfl⟩
    · cases h

theorem getBaseName_characterization (name : String) :
    (∃ ext, ext ∈ FileUtils.recognizedExts ∧
        strEndsWith (lowerStr name) ext = true ∧
        FileUtils.getBaseName name ++ strTakeRight name ext.length = name ∧
        lowerStr (strTakeRight name ext.length) = ext)
    ∨ ((∀ ext ∈ FileUtils.recognizedExts, strEndsWith (lowerStr name) ext = false) ∧
        FileUtils.getBaseName name = name) := by
  unfold FileUtils.getBaseName
  cases hf : FileUtils.recognizedExts.find?
      (fun ext => strEndsWith (lowerStr name) ext) with
  | some ext =>
    left
    have hmem := List.mem_of_find?_eq_some hf
    have hpred := List.find?_some hf
    have hsuffix : ext.data <:+ (lowerStr name).data := of_decide_eq_true hpred
    exact ⟨ext, hmem, hpred, strDropRight_append_takeRight name ext.length,
      lowerStr_strTakeRight_of_suffix name ext hsuffix⟩
  | none =>
    right
    refine ⟨fun ext hext => ?_, rfl⟩
    have := List.find?_eq_none.mp hf ext hext
    exact Bool.not_eq_true _ ▸ (by simpa using this)

/-- C2 amended: the baseName recorded on an extracted image or translation
record is the entry's FULL name with a trailing recognized media extension
removed case-insensitively; the directory path is retained in `baseName`
(only the separately recorded `filename` field is path-stripped). -/
theorem baseName_strips_extension_only (name : String) (sz : Nat) (rec : ImageRec)
    (h : FileManager.processImageFile name sz = some rec) :
    (rec.filename = FileManager.cleanFilename name
     ∧ ((∃ ext, ext ∈ FileUtils.recognizedExts ∧
           strEndsWith (lowerStr name) ext = true ∧
           rec.baseName ++ strTakeRight name ext.length = name ∧
           lowerStr (strTakeRight name ext.length) = ext)
        ∨ ((∀ ext ∈ FileUtils.recognizedExts,
             strEndsWith (lowerStr name) ext = false) ∧ rec.baseName = name)))
    ∧ (∀ (tname : String) (parsed : Option JsonVal) (tl : Nat) (trec : TransRec),
        FileManager.processJSONFile tname parsed tl = some trec →
        trec.filename = FileManager.cleanFilename tname
        ∧ ((∃ ext, ext ∈ FileUtils.recognizedExts ∧
              strEndsWith (lowerStr tname) ext = true ∧
              trec.baseName ++ strTakeRight tname ext.length = tname ∧
              lowerStr (strTakeRight tname ext.length) = ext)
           ∨ ((∀ ext ∈ FileUtils.recognizedExts,
                strEndsWith (lowerStr tname) ext = false) ∧ trec.baseName = tname))) := by
  constructor
  · have hrec := processImageFile_eq_some h
    subst hrec
    exact ⟨rfl, getBaseName_characterization name⟩
  · intro tname parsed tl trec ht
    obtain ⟨hb, hf⟩ := processJSONFile_eq_some ht
    rw [hb, hf]
    exact ⟨rfl, getBaseName_characterization tname⟩

/-- Concrete instantiation of the amended C2 theorem at the entry
`vol1/page_01.jpg` with a 100-byte blob. -/
theorem baseName_strips_extension_only_witness :
    FileManager.processImageFile "vol1/page_01.jpg" 100 =
      some { filename := "page_01.jpg", size := 100, baseName := "vol1/page_01" }
    ∧ (({ filename := "page_01.jpg", size := 100,
          baseName := "vol1/page_01" } : ImageRec).filename =
          FileManager.cleanFilename "vol1/page_01.jpg"
       ∧ ((∃ ext, ext ∈ FileUtils.recognizedExts ∧
             strEndsWith (lowerStr "vol1/page_01.jpg") ext = true ∧
             ("vol1/page_01" : String) ++
               strTakeRight "vol1/page_01.jpg" ext.length = "vol1/page_01.jpg" ∧
             lowerStr (strTakeRight "vol1/page_01.jpg" ext.length) = ext)
          ∨ ((∀ ext ∈ FileUtils.recognizedExts,
               strEndsWith (lowerStr "vol1/page_01.jpg") ext = false) ∧
             ("vol1/page_01" : String) = "vol1/page_01.jpg")))
    ∧ (∀ (tname : String) (parsed : Option JsonVal) (tl : Nat) (trec : TransRec),
        FileManager.processJSONFile tname parsed tl = some trec →
        trec.filename = FileManager.cleanFilename tname
        ∧ ((∃ ext, ext ∈ FileUtils.recognizedExts ∧
              strEndsWith (lowerStr tname) ext = true ∧
              trec.baseName ++ strTakeRight tname ext.length = tname ∧
              lowerStr (strTakeRight tname ext.length) = ext)
           ∨ ((∀ ext ∈ FileUtils.recognizedExts,
                strEndsWith (lowerStr tname) ext = false) ∧ trec.baseName = tname))) := by
  refine ⟨by decide, ?_⟩
  exact baseName_strips_extension_only "vol1/page_01.jpg" 100
    { filename := "page_01.jpg", size := 100, baseName := "vol1/page_01" } (by decide)

/-! ### C3: exact match first, normalized fuzzy match as fallback -/

/-- C3: For every image (with its non-empty extracted baseName), the
matcher pairs it with the first translation whose `baseName` matches
exactly when one exists; otherwise with the first translation whose
normalized baseName (lower-cased, non-alphanumerics removed, leading zeros
stripped) equals the image's normalized baseName; in particular image
`Page_05.png` fuzzy-matches translation `page-05.json` although no exact
match exists. -/
theorem findMatchingTranslation_policy (image : ImageRec)
    (translations : List TransRec) (h : image.baseName ≠ "") :
    FileManager.matchingPolicy translations image
    ∧ (FileManager.exTrans "page-05.json").baseName ≠
        (FileManager.exImage "Page_05.png").baseName
    ∧ FileManager.findMatchingTranslation [FileManager.exTrans "page-05.json"]
        (FileManager.exImage "Page_05.png") =
        some (FileManager.exTrans "page-05.json") := by
  refine ⟨⟨?_, ?_⟩, by decide, rfl⟩
  · rintro ⟨t0, ht0, hbn⟩
    cases hfind : translations.find? (fun t => t.baseName == image.baseName) with
    | none =>
      exfalso
      exact (List.find?_eq_none.mp hfind t0 ht0) (by simp [hbn])
    | some t =>
      obtain ⟨hp, pre, post, heq, hpre⟩ := List.find?_eq_some.mp hfind
      refine ⟨t, pre, post, ?_, eq_of_beq hp, heq, ?_⟩
      · unfold FileManager.findMatchingTranslation
        rw [if_neg h, hfind]
      · intro u hu
        simpa using hpre u hu
  · intro hne t
    have hnone : translations.find? (fun t => t.baseName == image.baseName) = none :=
      List.find?_eq_none.mpr (fun u hu => by simp [hne u hu])
    unfold FileManager.findMatchingTranslation
    rw [if_neg h, hnone]
    show translations.find? _ = some t ↔ _
    constructor
    · intro hs
      obtain ⟨hp, pre, post, heq, hpre⟩ := List.find?_eq_some.mp hs
      exact ⟨eq_of_beq hp, pre, post, heq, fun u hu => by simpa using hpre u hu⟩
    · rintro ⟨hnorm, pre, post, heq, hpre⟩
      exact List.find?_eq_some.mpr
        ⟨by simp [hnorm], pre, post, heq, fun u hu => by simp [hpre u hu]⟩

/-- Concrete instantiation of the C3 theorem: image `Page_05.png` against
the single translation `page-05.json`. -/
theorem findMatchingTranslation_policy_witness :
    (FileManager.exImage "Page_05.png").baseName ≠ "" ∧
    (FileManager.matchingPolicy [FileManager.exTrans "page-05.json"]
        (FileManager.exImage "Page_05.png")
     ∧ (FileManager.exTrans "page-05.json").baseName ≠
         (FileManager.exImage "Page_05.png").baseName
     ∧ FileManager.findMatchingTranslation [FileManager.exTrans "page-05.json"]
         (FileManager.exImage "Page_05.png") =
         some (FileManager.exTrans "page-05.json")) :=
  ⟨by decide, findMatchingTranslation_policy (FileManager.exImage "Page_05.png")
    [FileManager.exTrans "page-05.json"] (by decide)⟩

/-! ### C4: extraction fails only on an empty archive or zero valid images -/

/-- C4: Extraction fails if and only if the entry list is empty
(`EmptyArchive`) or zero valid images remain after processing
(`NoImagesFound`); faulty individual entries are skipped without aborting,
so the five image entries of `exEntriesOneBad` (one of zero size) extract
to exactly four images, and the three JSON entries of `exEntriesJson` (one
unparseable) extract to exactly two translations. -/
theorem extractFiles_failure_conditions (entries : List FileManager.ZipEntry) :
    (FileManager.extractFiles entries = .error .emptyArchive ↔ entries = [])
    ∧ (FileManager.extractFiles entries = .error .noImagesFound ↔
        (0 < entries.length ∧
         (entries.foldl FileManager.processEntry ([], [])).1.length = 0))
    ∧ ((∃ r, FileManager.extractFiles entries = .ok r) ↔
        (0 < entries.length ∧
         0 < (entries.foldl FileManager.processEntry ([], [])).1.length))
    ∧ (FileManager.extractFiles FileManager.exEntriesOneBad).toOption.map
        (fun r => r.1.length) = some 4
    ∧ FileManager.exEntriesOneBad.length = 5
    ∧ (FileManager.extractFiles FileManager.exEntriesJson).toOption.map
        (fun r => r.2.length) = some 2 := by
  refine ⟨?_, ?_, ?_, rfl, rfl, rfl⟩
  · cases entries with
    | nil => simp [FileManager.extractFiles]
    | cons e es =>
      simp only [FileManager.extractFiles]
      split_ifs with h0 h1 <;> simp_all
  · cases entries with
    | nil => simp [FileManager.extractFiles]
    | cons e es =>
      simp only [FileManager.extractFiles]
      split_ifs with h0 h1 <;> simp_all
  · cases entries with
    | nil => simp [FileManager.extractFiles]
    | cons e es =>
      simp only [FileManager.extractFiles]
      split_ifs with h0 h1 <;> simp_all [List.length_pos]

/-! ### C9: the archive-level size cap -/

/-- C9: `processZipFile` enforces an archive-level cap the spec never
states: any uploaded file larger than 100 MiB, and any zero-byte file,
makes validation throw, so the pipeline result is an error that does not
depend on the archive's entries (no entry is ever extracted). -/
theorem processZipFile_archive_size_cap (file : FileManager.UploadFile)
    (entries : List FileManager.ZipEntry)
    (h : FileManager.maxFileSize < file.size ∨ file.size = 0) :
    (∃ e, FileManager.validateZipFile file = .error e)
    ∧ (∀ entries', FileManager.processZipFile file entries =
        FileManager.processZipFile file entries')
    ∧ (∃ e, FileManager.processZipFile file entries = .error e) := by
  have hval : ∃ e, FileManager.validateZipFile file = .error e := by
    unfold FileManager.validateZipFile
    split_ifs with h1 h2 h3
    · exact ⟨_, rfl⟩
    · exact ⟨_, rfl⟩
    · exact ⟨_, rfl⟩
    · exfalso
      rcases h with h | h
      · exact h2 (by simpa [FileManager.maxFileSize] using h)
      · exact h3 (by simpa using h)
  obtain ⟨e, he⟩ := hval
  refine ⟨⟨e, he⟩, ?_, ⟨e, ?_⟩⟩
  · intro entries'
    unfold FileManager.processZipFile
    rw [he]
  · unfold FileManager.processZipFile
    rw [he]

/-- Concrete instantiation of the C9 theorem at a zero-byte upload named
`manga.zip`. -/
theorem processZipFile_archive_size_cap_witness :
    (FileManager.maxFileSize <
        (⟨"manga.zip", "application/zip", 0⟩ : FileManager.UploadFile).size ∨
      (⟨"manga.zip", "application/zip", 0⟩ : FileManager.UploadFile).size = 0)
    ∧ ((∃ e, FileManager.validateZipFile ⟨"manga.zip", "application/zip", 0⟩ =
          .error e)
       ∧ (∀ entries', FileManager.processZipFile
            ⟨"manga.zip", "application/zip", 0⟩ ([] : List FileManager.ZipEntry) =
            FileManager.processZipFile ⟨"manga.zip", "application/zip", 0⟩ entries')
       ∧ (∃ e, FileManager.processZipFile ⟨"manga.zip", "application/zip", 0⟩
            ([] : List FileManager.ZipEntry) = .error e)) :=
  ⟨by decide, processZipFile_archive_size_cap ⟨"manga.zip", "application/zip", 0⟩
    [] (by decide)⟩

/-! ### Association-list lemmas -/

theorem find?_map_overwrite {α : Type} (k : String) (v : α) :
    ∀ l : List (String × α), l.any (fun p => p.1 == k) = true →
      (l.map (fun p => if p.1 == k then (k, v) else p)).find?
        (fun p => p.1 == k) = some (k, v) := by
  intro l h
  induction l with
  | nil => cases h
  | cons p ps ih =>
    by_cases hp : (p.1 == k) = true
    · simp [List.find?, hp]
    · have hps : ps.any (fun p => p.1 == k) = true := by
        simpa [hp] using h
      have hp' : (p.1 == k) = false := by simpa using hp
      simp only [List.map_cons, List.find?, hp', if_false, Bool.false_eq_true]
      exact ih hps

theorem objGet_objAssign {α : Type} (l : List (String × α)) (k : String) (v : α) :
    objGet (objAssign l k v) k = some v := by
  unfold objGet objAssign
  by_cases h : l.any (fun p => p.1 == k) = true
  · rw [if_pos h, find?_map_overwrite k v l h]
    rfl
  · rw [if_neg h]
    have hnone : l.find? (fun p => p.1 == k) = none := by
      rw [List.find?_eq_none]
      intro x hx
      intro hpx
      exact h (List.any_eq_true.mpr ⟨x, hx, hpx⟩)
    rw [List.find?_append, hnone]
    simp [List.find?]

/-! ### C7: the persisted session payload shape -/

/-- C7 counterexample: `startReading` persists the WHOLE `processZipFile`
result as `files`, so the inner level has keys `success, images,
translations, matched, stats`, not exactly `images, translations, matched`
as the claim states. -/
theorem sessionPayload_shape_counterexample :
    pKeys ((startReadingStoredData "test"
        (⟨[], [], [], 0⟩ : FileManager.ProcessResult) 0).toObj) =
      ["name", "files", "uploadDate", "expiresAt"]
    ∧ (startReadingStoredData "test"
        (⟨[], [], [], 0⟩ : FileManager.ProcessResult) 0).files =
      processZipResultObj (⟨[], [], [], 0⟩ : FileManager.ProcessResult)
    ∧ pKeys (processZipResultObj (⟨[], [], [], 0⟩ : FileManager.ProcessResult)) ≠
      ["images", "translations", "matched"]
    ∧ "success" ∈
      pKeys (processZipResultObj (⟨[], [], [], 0⟩ : FileManager.ProcessResult)) :=
  ⟨rfl, rfl, by decide, by decide⟩

/-- C7 amended: the top level of every persisted session payload has
exactly the keys `name, files, uploadDate, expiresAt`, but the `files`
value is the entire `processZipFile` result object, whose keys are
`success, images, translations, matched, stats` (the claimed three plus
`success` and `stats`). -/
theorem sessionPayload_shape_amended (name : String)
    (r : FileManager.ProcessResult) (now : Nat) :
    pKeys ((startReadingStoredData name r now).toObj) =
      ["name", "files", "uploadDate", "expiresAt"]
    ∧ (startReadingStoredData name r now).files = processZipResultObj r
    ∧ pKeys (processZipResultObj r) =
      ["success", "images", "translations", "matched", "stats"]
    ∧ pField ((startReadingStoredData name r now).toObj) "files" =
      some (processZipResultObj r) :=
  ⟨rfl, rfl, rfl, rfl⟩

/-! ### C8: 24-hour expiry with delete-on-expired-read -/

/-- C8: every stored series gets `expiresAt` 24 hours after its creation
time; a retrieval strictly after `expiresAt` returns absent and deletes the
entry; a retrieval at or before `expiresAt` returns the stored payload
unchanged. -/
theorem storeSeries_getSeries_expiry
    (db : List (String × IndexedDBManager.SeriesData)) (name : String)
    (files : PayloadVal) (now t1 t2 : Nat) :
    (IndexedDBManager.mkSeriesData name files now).expiresAt =
      now + 24 * 60 * 60 * 1000
    ∧ objGet (IndexedDBManager.storeSeries db name files now) name =
      some (IndexedDBManager.mkSeriesData name files now)
    ∧ (now + 24 * 60 * 60 * 1000 < t1 →
        IndexedDBManager.getSeries (IndexedDBManager.storeSeries db name files now)
          name t1 =
          (none, objDelete (IndexedDBManager.storeSeries db name files now) name))
    ∧ (t2 ≤ now + 24 * 60 * 60 * 1000 →
        IndexedDBManager.getSeries (IndexedDBManager.storeSeries db name files now)
          name t2 =
          (some (IndexedDBManager.mkSeriesData name files now),
           IndexedDBManager.storeSeries db name files now)) := by
  have hget : objGet (IndexedDBManager.storeSeries db name files now) name =
      some (IndexedDBManager.mkSeriesData name files now) :=
    objGet_objAssign db name _
  refine ⟨rfl, hget, ?_, ?_⟩
  · intro ht
    unfold IndexedDBManager.getSeries
    rw [hget]
    simp only [IndexedDBManager.mkSeriesData]
    rw [if_pos ht]
  · intro ht
    unfold IndexedDBManager.getSeries
    rw [hget]
    simp only [IndexedDBManager.mkSeriesData]
    rw [if_neg (by omega)]

/-- Concrete instantiation of the C8 theorem: a series stored at time 0,
read once just past its 24-hour expiry and once before it. -/
theorem storeSeries_getSeries_expiry_witness :
    (IndexedDBManager.mkSeriesData "s" (.num 0) 0).expiresAt = 24 * 60 * 60 * 1000
    ∧ objGet (IndexedDBManager.storeSeries [] "s" (.num 0) 0) "s" =
      some (IndexedDBManager.mkSeriesData "s" (.num 0) 0)
    ∧ IndexedDBManager.getSeries (IndexedDBManager.storeSeries [] "s" (.num 0) 0)
        "s" 86400001 =
      (none, objDelete (IndexedDBManager.storeSeries [] "s" (.num 0) 0) "s")
    ∧ IndexedDBManager.getSeries (IndexedDBManager.storeSeries [] "s" (.num 0) 0)
        "s" 1000 =
      (some (IndexedDBManager.mkSeriesData "s" (.num 0) 0),
       IndexedDBManager.storeSeries [] "s" (.num 0) 0) := by
  have h := storeSeries_getSeries_expiry [] "s" (.num 0) 0 86400001 1000
  exact ⟨h.1, h.2.1, h.2.2.1 (by norm_num), h.2.2.2 (by norm_num)⟩

/-! ### C10: reading progress keyed by the sanitized series name -/

/-- C10: reading progress is keyed by the sanitized series name, so any two
names with equal sanitized forms share one record: saving under one and
reading under the other returns the first one's record (overwriting
whatever was stored there); in particular `My Manga!` and `my manga?`
sanitize identically. -/
theorem progress_key_collision (store : List (String × StorageManager.ProgressRec))
    (n1 n2 : String) (cp tp lr : Nat) (h1 : n1 ≠ "") (h2 : n2 ≠ "")
    (hs : StringUtils.sanitize n1 = StringUtils.sanitize n2) :
    StorageManager.getProgress (StorageManager.saveProgress store n1 cp tp lr) n2 =
      some (StorageManager.mkProgressRecord n1 cp tp lr)
    ∧ StringUtils.sanitize "My Manga!" = StringUtils.sanitize "my manga?" := by
  constructor
  · unfold StorageManager.getProgress StorageManager.saveProgress
    rw [if_neg h1, if_neg h2, ← hs]
    exact objGet_objAssign store _ _
  · decide

/-- Concrete instantiation of the C10 theorem at the colliding names
`My Manga!` and `my manga?`. -/
theorem progress_key_collision_witness :
    ("My Manga!" : String) ≠ "" ∧ ("my manga?" : String) ≠ ""
    ∧ StringUtils.sanitize "My Manga!" = StringUtils.sanitize "my manga?"
    ∧ (StorageManager.getProgress
        (StorageManager.saveProgress [] "My Manga!" 3 10 5) "my manga?" =
        some (StorageManager.mkProgressRecord "My Manga!" 3 10 5)
       ∧ StringUtils.sanitize "My Manga!" = StringUtils.sanitize "my manga?") :=
  ⟨by decide, by decide, by decide,
   progress_key_collision [] "My Manga!" "my manga?" 3 10 5 (by decide) (by decide)
     (by decide)⟩

/-! ### List-indexing and fold helpers for the separation proofs -/

theorem getD_set_ne {α : Type} (l : List α) (i k : Nat) (a d : α) (h : i ≠ k) :
    (l.set i a).getD k d = l.getD k d := by
  simp [List.getD, List.getElem?_set_ne h]

theorem getD_set_self {α : Type} (l : List α) (i : Nat) (a d : α)
    (h : i < l.length) : (l.set i a).getD i d = a := by
  simp [List.getD, List.getElem?_set_self, h]

theorem getD_of_getElem? {α : Type} {l : List α} {i : Nat} {a : α} (d : α)
    (h : l[i]? = some a) : l.getD i d = a := by
  simp [List.getD, h]

theorem lt_length_of_getElem? {α : Type} {l : List α} {i : Nat} {a : α}
    (h : l[i]? = some a) : i < l.length :=
  (List.getElem?_eq_some.mp h).1

theorem getD_replicate {α : Type} (n k : Nat) (d : α) (_h : k < n) :
    (List.replicate n d).getD k d = d := by
  simp [List.getD]

theorem foldl_preserve {σ α : Type} (P : σ → Prop) (f : σ → α → σ) :
    ∀ (l : List α) (s : σ), P s → (∀ t x, x ∈ l → P t → P (f t x)) →
      P (l.foldl f s)
  | [], _, hs, _ => hs
  | x :: xs, s, hs, hstep =>
    foldl_preserve P f xs (f s x) (hstep s x (List.mem_cons_self x xs) hs)
      (fun t y hy ht => hstep t y (List.mem_cons_of_mem x hy) ht)

theorem pairsUpTo_lt {n i j : Nat} (h : (i, j) ∈ MangaReader.pairsUpTo n) :
    i < j := by
  unfold MangaReader.pairsUpTo at h
  rw [List.mem_flatMap] at h
  obtain ⟨i', _, hmem⟩ := h
  rw [List.mem_map] at hmem
  obtain ⟨j', hj', heq⟩ := hmem
  obtain ⟨rfl, rfl⟩ : i' = i ∧ j' = j := by
    constructor <;> [exact congrArg Prod.fst heq; exact congrArg Prod.snd heq]
  obtain ⟨k, _, hk⟩ := List.mem_range'.mp hj'
  omega

/-! ### Clamping lemmas for `_nudgeWithinOverlay` -/

theorem clamp_move_le (lo hi x dx : ℚ) (h1 : lo ≤ x) (h2 : x ≤ hi) :
    |max lo (min hi (x + dx)) - x| ≤ |dx| := by
  have hdx1 : dx ≤ |dx| := le_abs_self dx
  have hdx2 : -|dx| ≤ dx := neg_abs_le dx
  rcases le_total (x + dx) lo with hc | hc
  · rw [min_eq_right (le_trans hc (le_trans h1 h2)), max_eq_left hc, abs_le]
    constructor <;> linarith
  · rcases le_total (x + dx) hi with hd | hd
    · rw [min_eq_right hd, max_eq_right hc, abs_le]
      constructor <;> linarith
    · rw [min_eq_left hd, max_eq_right (le_trans h1 h2), abs_le]
      constructor <;> linarith

theorem clamp_mem (lo hi z : ℚ) (h : lo ≤ hi) :
    lo ≤ max lo (min hi z) ∧ max lo (min hi z) ≤ hi :=
  ⟨le_max_left _ _, max_le h (min_le_left _ _)⟩

namespace MangaReader

theorem blkInBounds_iff (ov : OvRect) (b : Blk) :
    blkInBounds ov b = true ↔
      (4 ≤ b.x ∧ b.x ≤ ov.width - b.w - 4 ∧ 4 ≤ b.y ∧ b.y ≤ ov.height - b.h - 4) := by
  simp [blkInBounds, and_assoc]

theorem nudge_w (ov : OvRect) (b : Blk) (dx dy : ℚ) :
    (nudgeWithinOverlay ov b dx dy).w = b.w := rfl

theorem nudge_h (ov : OvRect) (b : Blk) (dx dy : ℚ) :
    (nudgeWithinOverlay ov b dx dy).h = b.h := rfl

theorem nudge_bounds_delta (ov : OvRect) (b : Blk) (dx dy : ℚ)
    (hb : blkInBounds ov b = true) :
    |(nudgeWithinOverlay ov b dx dy).x - b.x| ≤ |dx|
    ∧ |(nudgeWithinOverlay ov b dx dy).y - b.y| ≤ |dy|
    ∧ blkInBounds ov (nudgeWithinOverlay ov b dx dy) = true := by
  rw [blkInBounds_iff] at hb
  obtain ⟨h1, h2, h3, h4⟩ := hb
  refine ⟨clamp_move_le 4 (ov.width - b.w - 4) b.x dx h1 h2,
    clamp_move_le 4 (ov.height - b.h - 4) b.y dy h3 h4, ?_⟩
  rw [blkInBounds_iff, nudge_w, nudge_h]
  exact ⟨(clamp_mem 4 (ov.width - b.w - 4) (b.x + dx) (le_trans h1 h2)).1,
    (clamp_mem 4 (ov.width - b.w - 4) (b.x + dx) (le_trans h1 h2)).2,
    (clamp_mem 4 (ov.height - b.h - 4) (b.y + dy) (le_trans h3 h4)).1,
    (clamp_mem 4 (ov.height - b.h - 4) (b.y + dy) (le_trans h3 h4)).2⟩

theorem nudge_id_of_inBounds_x (ov : OvRect) (b : Blk) (dy : ℚ)
    (hb : blkInBounds ov b = true) :
    (nudgeWithinOverlay ov b 0 dy).x = b.x := by
  rw [blkInBounds_iff] at hb
  show max 4 (min (ov.width - b.w - 4) (b.x + 0)) = b.x
  rw [add_zero, min_eq_right hb.2.1, max_eq_right hb.1]

theorem nudge_id_of_inBounds_y (ov : OvRect) (b : Blk) (dx : ℚ)
    (hb : blkInBounds ov b = true) :
    (nudgeWithinOverlay ov b dx 0).y = b.y := by
  rw [blkInBounds_iff] at hb
  show max 4 (min (ov.height - b.h - 4) (b.y + 0)) = b.y
  rw [add_zero, min_eq_right hb.2.2.2, max_eq_right hb.2.2.1]

end MangaReader

theorem mem_of_getElem?_eq_some {α : Type} {l : List α} {i : Nat} {a : α}
    (h : l[i]? = some a) : a ∈ l := by
  obtain ⟨hlt, heq⟩ := List.getElem?_eq_some.mp h
  exact heq ▸ List.getElem_mem hlt

namespace MangaReader

theorem bumpAt_length (l : List ℚ) (k : Nat) (d : ℚ) :
    (bumpAt l k d).length = l.length := List.length_set l k _

theorem bumpAt_getD_self (l : List ℚ) (k : Nat) (d : ℚ) (h : k < l.length) :
    (bumpAt l k d).getD k 0 = l.getD k 0 + d :=
  getD_set_self l k _ 0 h

theorem bumpAt_getD_ne (l : List ℚ) (k m : Nat) (d : ℚ) (h : k ≠ m) :
    (bumpAt l k d).getD m 0 = l.getD m 0 :=
  getD_set_ne l k m _ 0 h

theorem ensureSaved_eq_of_some {s : SepState} {k : Nat} {q : ℚ × ℚ}
    (h : s.origs.getD k none = some q) : ensureSavedOriginal s k = s := by
  unfold ensureSavedOriginal
  rw [h]

theorem ensureSaved_eq_of_none {s : SepState} {k : Nat} {a : Blk}
    (ho : s.origs.getD k none = none) (hb : s.blocks[k]? = some a) :
    ensureSavedOriginal s k = { s with origs := s.origs.set k (some (a.x, a.y)) } := by
  unfold ensureSavedOriginal
  rw [ho, hb]

theorem ensureSaved_blocks (s : SepState) (k : Nat) :
    (ensureSavedOriginal s k).blocks = s.blocks := by
  unfold ensureSavedOriginal
  split
  · rfl
  · split <;> rfl

theorem ensureSaved_moved (s : SepState) (k : Nat) :
    (ensureSavedOriginal s k).moved = s.moved := by
  unfold ensureSavedOriginal
  split
  · rfl
  · split <;> rfl

theorem ensureSaved_actual (s : SepState) (k : Nat) :
    (ensureSavedOriginal s k).actual = s.actual := by
  unfold ensureSavedOriginal
  split
  · rfl
  · split <;> rfl

theorem ensureSaved_origs_length (s : SepState) (k : Nat) :
    (ensureSavedOriginal s k).origs.length = s.origs.length := by
  unfold ensureSavedOriginal
  split
  · rfl
  · split
    · exact List.length_set _ _ _
    · rfl

theorem ensureSaved_origs_getD_ne (s : SepState) (k m : Nat) (h : k ≠ m) :
    (ensureSavedOriginal s k).origs.getD m none = s.origs.getD m none := by
  unfold ensureSavedOriginal
  split
  · rfl
  · split
    · exact getD_set_ne _ _ _ _ _ h
    · rfl

theorem pairStepSize_le_three (ov : OvRect) (s : SepState) (i j : Nat)
    (a b : Blk) : pairStepSize ov s i j a b ≤ 3 := by
  unfold pairStepSize
  refine le_trans (min_le_left _ _) ?_
  have h6 : min ((if penetrationX (blockRect ov a) (blockRect ov b) ≤
      penetrationY (blockRect ov a) (blockRect ov b) then
      penetrationX (blockRect ov a) (blockRect ov b) else
      penetrationY (blockRect ov a) (blockRect ov b)) + 2) 6 ≤ 6 :=
    min_le_right _ _
  linarith

theorem pairStepSize_le_capA (ov : OvRect) (s : SepState) (i j : Nat)
    (a b : Blk) : pairStepSize ov s i j a b ≤ max 0 (24 - s.moved.getD i 0) :=
  le_trans (min_le_right _ _) (min_le_left _ _)

theorem pairStepSize_le_capB (ov : OvRect) (s : SepState) (i j : Nat)
    (a b : Blk) : pairStepSize ov s i j a b ≤ max 0 (24 - s.moved.getD j 0) :=
  le_trans (min_le_right _ _) (min_le_right _ _)

end MangaReader

namespace MangaReader

theorem processPair_spec (ov : OvRect) (s : SepState) (i j : Nat) :
    processPair ov s i j = s ∨
    ∃ (a b : Blk) (dxa dya dxb dyb step : ℚ),
      s.blocks[i]? = some a ∧ s.blocks[j]? = some b ∧
      step = pairStepSize ov s i j a b ∧ 0 < step ∧
      |dxa| + |dya| = step ∧ |dxb| + |dyb| = step ∧
      ((dya = 0 ∧ dyb = 0 ∧
          penetrationX (blockRect ov a) (blockRect ov b) ≤
            penetrationY (blockRect ov a) (blockRect ov b)) ∨
       (dxa = 0 ∧ dxb = 0 ∧
          penetrationY (blockRect ov a) (blockRect ov b) <
            penetrationX (blockRect ov a) (blockRect ov b))) ∧
      processPair ov s i j = applyPush ov s i j a b dxa dya dxb dyb step := by
  cases hi : s.blocks[i]? with
  | none =>
    left
    unfold processPair
    rw [hi]
  | some a =>
    cases hj : s.blocks[j]? with
    | none =>
      left
      unfold processPair
      rw [hi, hj]
    | some b =>
      by_cases hov : rectsOverlap (blockRect ov a) (blockRect ov b) = true
      · by_cases hstep : pairStepSize ov s i j a b ≤ 0
        · left
          unfold processPair
          rw [hi, hj]
          simp only [hov, if_true, if_pos hstep]
        · right
          have hpos : 0 < pairStepSize ov s i j a b := not_le.mp hstep
          have habs1 : |(1 : ℚ) * pairStepSize ov s i j a b| + |(0 : ℚ)| =
              pairStepSize ov s i j a b := by
            rw [one_mul, abs_zero, add_zero, abs_of_pos hpos]
          have habsn1 : |(-1 : ℚ) * pairStepSize ov s i j a b| + |(0 : ℚ)| =
              pairStepSize ov s i j a b := by
            rw [neg_one_mul, abs_neg, abs_zero, add_zero, abs_of_pos hpos]
          have habs1' : |(0 : ℚ)| + |(1 : ℚ) * pairStepSize ov s i j a b| =
              pairStepSize ov s i j a b := by
            rw [one_mul, abs_zero, zero_add, abs_of_pos hpos]
          have habsn1' : |(0 : ℚ)| + |(-1 : ℚ) * pairStepSize ov s i j a b| =
              pairStepSize ov s i j a b := by
            rw [neg_one_mul, abs_neg, abs_zero, zero_add, abs_of_pos hpos]
          by_cases hax : penetrationX (blockRect ov a) (blockRect ov b) ≤
              penetrationY (blockRect ov a) (blockRect ov b)
          · by_cases hdir : (blockRect ov b).left + (blockRect ov b).width / 2 ≥
                (blockRect ov a).left + (blockRect ov a).width / 2
            · refine ⟨a, b, -(1 : ℚ) * pairStepSize ov s i j a b, 0,
                (1 : ℚ) * pairStepSize ov s i j a b, 0, pairStepSize ov s i j a b,
                rfl, rfl, rfl, hpos, ?_, ?_, Or.inl ⟨rfl, rfl, hax⟩, ?_⟩
              · rw [show -(1 : ℚ) * pairStepSize ov s i j a b =
                  (-1 : ℚ) * pairStepSize ov s i j a b from by ring]
                exact habsn1
              · exact habs1
              · unfold processPair
                rw [hi, hj]
                simp only [hov, if_true, if_neg hstep, if_pos hax, if_pos hdir]
            · refine ⟨a, b, -(-1 : ℚ) * pairStepSize ov s i j a b, 0,
                (-1 : ℚ) * pairStepSize ov s i j a b, 0, pairStepSize ov s i j a b,
                rfl, rfl, rfl, hpos, ?_, ?_, Or.inl ⟨rfl, rfl, hax⟩, ?_⟩
              · rw [show -(-1 : ℚ) * pairStepSize ov s i j a b =
                  (1 : ℚ) * pairStepSize ov s i j a b from by ring]
                exact habs1
              · exact habsn1
              · unfold processPair
                rw [hi, hj]
                simp only [hov, if_true, if_neg hstep, if_pos hax, if_neg hdir]
          · by_cases hdir : (blockRect ov b).top + (blockRect ov b).height / 2 ≥
                (blockRect ov a).top + (blockRect ov a).height / 2
            · refine ⟨a, b, 0, -(1 : ℚ) * pairStepSize ov s i j a b, 0,
                (1 : ℚ) * pairStepSize ov s i j a b, pairStepSize ov s i j a b,
                rfl, rfl, rfl, hpos, ?_, ?_, Or.inr ⟨rfl, rfl, not_le.mp hax⟩, ?_⟩
              · rw [show -(1 : ℚ) * pairStepSize ov s i j a b =
                  (-1 : ℚ) * pairStepSize ov s i j a b from by ring]
                exact habsn1'
              · exact habs1'
              · unfold processPair
                rw [hi, hj]
                simp only [hov, if_true, if_neg hstep, if_neg hax, if_pos hdir]
            · refine ⟨a, b, 0, -(-1 : ℚ) * pairStepSize ov s i j a b, 0,
                (-1 : ℚ) * pairStepSize ov s i j a b, pairStepSize ov s i j a b,
                rfl, rfl, rfl, hpos, ?_, ?_, Or.inr ⟨rfl, rfl, not_le.mp hax⟩, ?_⟩
              · rw [show -(-1 : ℚ) * pairStepSize ov s i j a b =
                  (1 : ℚ) * pairStepSize ov s i j a b from by ring]
                exact habs1'
              · exact habsn1'
              · unfold processPair
                rw [hi, hj]
                simp only [hov, if_true, if_neg hstep, if_neg hax, if_neg hdir]
      · left
        unfold processPair
        rw [hi, hj]
        simp [hov]

end MangaReader

namespace MangaReader

theorem applyPush_sepInv (ov : OvRect) (init : List Blk) (s : SepState)
    (i j : Nat) (a b : Blk) (dxa dya dxb dyb step : ℚ)
    (hij : i ≠ j)
    (hi : s.blocks[i]? = some a) (hj : s.blocks[j]? = some b)
    (hda : |dxa| + |dya| = step) (hdb : |dxb| + |dyb| = step)
    (hpos : 0 < step)
    (hcapA : step ≤ max 0 (24 - s.moved.getD i 0))
    (hcapB : step ≤ max 0 (24 - s.moved.getD j 0))
    (hinv : sepInv ov init s) :
    sepInv ov init (applyPush ov s i j a b dxa dya dxb dyb step) := by
  obtain ⟨hbl, hml, hal, hpt⟩ := hinv
  have hilt : i < init.length := by have := lt_length_of_getElem? hi; omega
  have hjlt : j < init.length := by have := lt_length_of_getElem? hj; omega
  have hb1 : (applyPush ov s i j a b dxa dya dxb dyb step).blocks
      = (s.blocks.set i (nudgeWithinOverlay ov a dxa dya)).set j
          (nudgeWithinOverlay ov b dxb dyb) := by
    simp only [applyPush, ensureSaved_blocks]
  have hm1 : (applyPush ov s i j a b dxa dya dxb dyb step).moved
      = bumpAt (bumpAt s.moved i step) j step := by
    simp only [applyPush, ensureSaved_moved]
  have ha1 : (applyPush ov s i j a b dxa dya dxb dyb step).actual
      = bumpAt (bumpAt s.actual i
          (|(nudgeWithinOverlay ov a dxa dya).x - a.x| +
           |(nudgeWithinOverlay ov a dxa dya).y - a.y|)) j
          (|(nudgeWithinOverlay ov b dxb dyb).x - b.x| +
           |(nudgeWithinOverlay ov b dxb dyb).y - b.y|) := by
    simp only [applyPush, ensureSaved_actual]
  have hga : s.blocks.getD i blkDefault = a := getD_of_getElem? blkDefault hi
  have hgb : s.blocks.getD j blkDefault = b := getD_of_getElem? blkDefault hj
  refine ⟨by rw [hb1]; simp [List.length_set, hbl],
    by rw [hm1]; simp [bumpAt_length, hml],
    by rw [ha1]; simp [bumpAt_length, hal], ?_⟩
  intro k hk
  by_cases hki : k = i
  · subst hki
    have hblocks : (applyPush ov s k j a b dxa dya dxb dyb step).blocks.getD k
        blkDefault = nudgeWithinOverlay ov a dxa dya := by
      rw [hb1, getD_set_ne _ j k _ _ (fun hh => hij hh.symm),
        getD_set_self _ k _ _ (by omega)]
    have hmoved : (applyPush ov s k j a b dxa dya dxb dyb step).moved.getD k 0
        = s.moved.getD k 0 + step := by
      rw [hm1, bumpAt_getD_ne _ j k _ (fun hh => hij hh.symm),
        bumpAt_getD_self _ k _ (by omega)]
    have hactual : (applyPush ov s k j a b dxa dya dxb dyb step).actual.getD k 0
        = s.actual.getD k 0 +
          (|(nudgeWithinOverlay ov a dxa dya).x - a.x| +
           |(nudgeWithinOverlay ov a dxa dya).y - a.y|) := by
      rw [ha1, bumpAt_getD_ne _ j k _ (fun hh => hij hh.symm),
        bumpAt_getD_self _ k _ (by omega)]
    obtain ⟨hw, hh, hbnd, hnet, ham, hm24⟩ := hpt k hk
    rw [hga] at hw hh hbnd hnet
    have hnb := nudge_bounds_delta ov a dxa dya hbnd
    rw [hblocks, hmoved, hactual]
    refine ⟨by rw [nudge_w]; exact hw, by rw [nudge_h]; exact hh, hnb.2.2, ?_, ?_, ?_⟩
    · have t1 := abs_sub_le (nudgeWithinOverlay ov a dxa dya).x a.x
        (init.getD k blkDefault).x
      have t2 := abs_sub_le (nudgeWithinOverlay ov a dxa dya).y a.y
        (init.getD k blkDefault).y
      linarith
    · have d1 := hnb.1
      have d2 := hnb.2.1
      linarith
    · rcases le_or_lt (24 - s.moved.getD k 0) 0 with hle | hlt
      · rw [max_eq_left hle] at hcapA
        linarith
      · rw [max_eq_right hlt.le] at hcapA
        linarith
  · by_cases hkj : k = j
    · subst hkj
      have hblocks : (applyPush ov s i k a b dxa dya dxb dyb step).blocks.getD k
          blkDefault = nudgeWithinOverlay ov b dxb dyb := by
        rw [hb1, getD_set_self _ k _ _ (by simp only [List.length_set]; omega)]
      have hmoved : (applyPush ov s i k a b dxa dya dxb dyb step).moved.getD k 0
          = s.moved.getD k 0 + step := by
        rw [hm1, bumpAt_getD_self _ k _ (by rw [bumpAt_length]; omega),
          bumpAt_getD_ne _ i k _ (fun hh => hki hh.symm)]
      have hactual : (applyPush ov s i k a b dxa dya dxb dyb step).actual.getD k 0
          = s.actual.getD k 0 +
            (|(nudgeWithinOverlay ov b dxb dyb).x - b.x| +
             |(nudgeWithinOverlay ov b dxb dyb).y - b.y|) := by
        rw [ha1, bumpAt_getD_self _ k _ (by rw [bumpAt_length]; omega),
          bumpAt_getD_ne _ i k _ (fun hh => hki hh.symm)]
      obtain ⟨hw, hh, hbnd, hnet, ham, hm24⟩ := hpt k hk
      rw [hgb] at hw hh hbnd hnet
      have hnb := nudge_bounds_delta ov b dxb dyb hbnd
      rw [hblocks, hmoved, hactual]
      refine ⟨by rw [nudge_w]; exact hw, by rw [nudge_h]; exact hh, hnb.2.2, ?_, ?_, ?_⟩
      · have t1 := abs_sub_le (nudgeWithinOverlay ov b dxb dyb).x b.x
          (init.getD k blkDefault).x
        have t2 := abs_sub_le (nudgeWithinOverlay ov b dxb dyb).y b.y
          (init.getD k blkDefault).y
        linarith
      · have d1 := hnb.1
        have d2 := hnb.2.1
        linarith
      · rcases le_or_lt (24 - s.moved.getD k 0) 0 with hle | hlt
        · rw [max_eq_left hle] at hcapB
          linarith
        · rw [max_eq_right hlt.le] at hcapB
          linarith
    · have hblocks : (applyPush ov s i j a b dxa dya dxb dyb step).blocks.getD k
          blkDefault = s.blocks.getD k blkDefault := by
        rw [hb1, getD_set_ne _ j k _ _ (fun hh => hkj hh.symm),
          getD_set_ne _ i k _ _ (fun hh => hki hh.symm)]
      have hmoved : (applyPush ov s i j a b dxa dya dxb dyb step).moved.getD k 0
          = s.moved.getD k 0 := by
        rw [hm1, bumpAt_getD_ne _ j k _ (fun hh => hkj hh.symm),
          bumpAt_getD_ne _ i k _ (fun hh => hki hh.symm)]
      have hactual : (applyPush ov s i j a b dxa dya dxb dyb step).actual.getD k 0
          = s.actual.getD k 0 := by
        rw [ha1, bumpAt_getD_ne _ j k _ (fun hh => hkj hh.symm),
          bumpAt_getD_ne _ i k _ (fun hh => hki hh.symm)]
      rw [hblocks, hmoved, hactual]
      exact hpt k hk

theorem processPair_sepInv (ov : OvRect) (init : List Blk) (s : SepState)
    (i j : Nat) (hij : i ≠ j) (hinv : sepInv ov init s) :
    sepInv ov init (processPair ov s i j) := by
  rcases processPair_spec ov s i j with heq |
    ⟨a, b, dxa, dya, dxb, dyb, step, hi, hj, hstep, hpos, hda, hdb, _, heq⟩
  · rw [heq]; exact hinv
  · rw [heq]
    exact applyPush_sepInv ov init s i j a b dxa dya dxb dyb step hij hi hj hda hdb
      hpos (hstep ▸ pairStepSize_le_capA ov s i j a b)
      (hstep ▸ pairStepSize_le_capB ov s i j a b) hinv

end MangaReader

namespace MangaReader

theorem sweep_sepInv (ov : OvRect) (init : List Blk) (s : SepState)
    (hinv : sepInv ov init s) : sepInv ov init (sweep ov s) := by
  unfold sweep
  refine foldl_preserve (sepInv ov init) _ _ _ hinv ?_
  intro t x hx ht
  have hx' : (x.1, x.2) ∈ pairsUpTo s.blocks.length := by
    rw [Prod.mk.eta]
    exact hx
  exact processPair_sepInv ov init t x.1 x.2 (Nat.ne_of_lt (pairsUpTo_lt hx')) ht

theorem sepLoop_sepInv (ov : OvRect) (init : List Blk) :
    ∀ (n : Nat) (s : SepState), sepInv ov init s →
      sepInv ov init (sepLoop ov n s) := by
  intro n
  induction n with
  | zero => intro s h; exact h
  | succ n ih =>
    intro s h
    show sepInv ov init
      (if (sweep ov s).anyMoved = true then sepLoop ov n (sweep ov s) else sweep ov s)
    split_ifs with h1
    · exact ih _ (sweep_sepInv ov init s h)
    · exact sweep_sepInv ov init s h

theorem sepLoop_iterate (ov : OvRect) :
    ∀ (n : Nat) (s : SepState), ∃ k, k ≤ n ∧
      sepLoop ov n s = (sweep ov)^[k] s ∧
      (k = n ∨ ((sweep ov)^[k] s).anyMoved = false) := by
  intro n
  induction n with
  | zero => intro s; exact ⟨0, le_refl 0, rfl, Or.inl rfl⟩
  | succ n ih =>
    intro s
    show ∃ k, k ≤ n + 1 ∧
      (if (sweep ov s).anyMoved = true then sepLoop ov n (sweep ov s) else sweep ov s) =
        (sweep ov)^[k] s ∧ _
    by_cases h1 : (sweep ov s).anyMoved = true
    · obtain ⟨k, hk, heq, hd⟩ := ih (sweep ov s)
      refine ⟨k + 1, by omega, ?_, ?_⟩
      · rw [if_pos h1, heq, Function.iterate_succ_apply]
      · rcases hd with rfl | hf
        · exact Or.inl rfl
        · right
          rw [Function.iterate_succ_apply]
          exact hf
    · refine ⟨1, by omega, ?_, Or.inr ?_⟩
      · rw [if_neg h1, Function.iterate_one]
      · rw [Function.iterate_one]
        simpa using h1

end MangaReader

namespace MangaReader

theorem ensureSaved_origInv (init : List Blk) (s : SepState) (k : Nat)
    (hinv : origInv init s) : origInv init (ensureSavedOriginal s k) := by
  obtain ⟨hbl, hol, hpt⟩ := hinv
  cases ho : s.origs.getD k none with
  | some q => rw [ensureSaved_eq_of_some ho]; exact ⟨hbl, hol, hpt⟩
  | none =>
    cases hbk : s.blocks[k]? with
    | none =>
      have hred : ensureSavedOriginal s k = s := by
        unfold ensureSavedOriginal
        rw [ho, hbk]
      rw [hred]
      exact ⟨hbl, hol, hpt⟩
    | some bk =>
      rw [ensureSaved_eq_of_none ho hbk]
      refine ⟨hbl, by simp [List.length_set, hol], ?_⟩
      intro m hm
      by_cases hmk : m = k
      · subst hmk
        have hset : (s.origs.set m (some (bk.x, bk.y))).getD m none =
            some (bk.x, bk.y) :=
          getD_set_self _ m _ none (by omega)
        obtain ⟨hw, hh, hnone, _⟩ := hpt m hm
        have hbeq : s.blocks.getD m blkDefault = bk := getD_of_getElem? blkDefault hbk
        have hmain := hnone ho
        rw [hbeq] at hmain
        refine ⟨hw, hh, ?_, ?_⟩
        · intro hcontra
          rw [hset] at hcontra
          cases hcontra
        · intro q hq
          rw [hset] at hq
          cases Option.some.inj hq
          rw [← hmain]
      · obtain ⟨hw, hh, hnone, hsome⟩ := hpt m hm
        rw [getD_set_ne _ k m _ none (fun hh2 => hmk hh2.symm)]
        exact ⟨hw, hh, hnone, hsome⟩

theorem ensureSaved_saved (s : SepState) (k : Nat) (bk : Blk)
    (hb : s.blocks[k]? = some bk) (hk : k < s.origs.length) :
    ∃ q, (ensureSavedOriginal s k).origs.getD k none = some q := by
  cases ho : s.origs.getD k none with
  | some q =>
    rw [ensureSaved_eq_of_some ho]
    exact ⟨q, ho⟩
  | none =>
    rw [ensureSaved_eq_of_none ho hb]
    exact ⟨(bk.x, bk.y), getD_set_self _ k _ none hk⟩

theorem applyPush_origInv (ov : OvRect) (init : List Blk) (s : SepState)
    (i j : Nat) (a b : Blk) (dxa dya dxb dyb step : Rat)
    (hij : i ≠ j) (hi : s.blocks[i]? = some a) (hj : s.blocks[j]? = some b)
    (hinv : origInv init s) :
    origInv init (applyPush ov s i j a b dxa dya dxb dyb step) := by
  have hbl := hinv.1
  have hol := hinv.2.1
  have hilen : i < init.length := by have := lt_length_of_getElem? hi; omega
  have hjlen : j < init.length := by have := lt_length_of_getElem? hj; omega
  have hinv1 : origInv init (ensureSavedOriginal (ensureSavedOriginal s i) j) :=
    ensureSaved_origInv init _ j (ensureSaved_origInv init s i hinv)
  obtain ⟨hbl1, hol1, hpt1⟩ := hinv1
  have hbsame : (ensureSavedOriginal (ensureSavedOriginal s i) j).blocks =
      s.blocks := by
    rw [ensureSaved_blocks, ensureSaved_blocks]
  have hs1i : ∃ q,
      (ensureSavedOriginal (ensureSavedOriginal s i) j).origs.getD i none =
        some q := by
    obtain ⟨q, hq⟩ := ensureSaved_saved s i a hi (by omega)
    refine ⟨q, ?_⟩
    rw [ensureSaved_origs_getD_ne _ j i (fun hh => hij hh.symm)]
    exact hq
  have hs1j : ∃ q,
      (ensureSavedOriginal (ensureSavedOriginal s i) j).origs.getD j none =
        some q :=
    ensureSaved_saved (ensureSavedOriginal s i) j b
      (by rw [ensureSaved_blocks]; exact hj)
      (by rw [ensureSaved_origs_length]; omega)
  have hb1 : (applyPush ov s i j a b dxa dya dxb dyb step).blocks
      = ((ensureSavedOriginal (ensureSavedOriginal s i) j).blocks.set i
          (nudgeWithinOverlay ov a dxa dya)).set j
            (nudgeWithinOverlay ov b dxb dyb) := by
    simp only [applyPush]
  have ho1 : (applyPush ov s i j a b dxa dya dxb dyb step).origs
      = (ensureSavedOriginal (ensureSavedOriginal s i) j).origs := by
    simp only [applyPush]
  rw [hbsame] at hb1
  refine ⟨by rw [hb1]; simp [List.length_set]; omega,
    by rw [ho1]; exact hol1, ?_⟩
  intro m hm
  by_cases hmi : m = i
  · subst hmi
    have hblk : (applyPush ov s m j a b dxa dya dxb dyb step).blocks.getD m
        blkDefault = nudgeWithinOverlay ov a dxa dya := by
      rw [hb1, getD_set_ne _ j m _ _ (fun hh => hij hh.symm),
        getD_set_self _ m _ _ (by omega)]
    have hga : s.blocks.getD m blkDefault = a := getD_of_getElem? blkDefault hi
    obtain ⟨hw1, hh1, _, hsome1⟩ := hpt1 m hm
    rw [hbsame, hga] at hw1 hh1
    rw [hblk, ho1]
    refine ⟨by rw [nudge_w]; exact hw1, by rw [nudge_h]; exact hh1, ?_, ?_⟩
    · intro hcontra
      obtain ⟨q, hq⟩ := hs1i
      rw [hq] at hcontra
      cases hcontra
    · intro q hq
      exact hsome1 q hq
  · by_cases hmj : m = j
    · subst hmj
      have hblk : (applyPush ov s i m a b dxa dya dxb dyb step).blocks.getD m
          blkDefault = nudgeWithinOverlay ov b dxb dyb := by
        rw [hb1, getD_set_self _ m _ _ (by simp only [List.length_set]; omega)]
      have hgb : s.blocks.getD m blkDefault = b := getD_of_getElem? blkDefault hj
      obtain ⟨hw1, hh1, _, hsome1⟩ := hpt1 m hm
      rw [hbsame, hgb] at hw1 hh1
      rw [hblk, ho1]
      refine ⟨by rw [nudge_w]; exact hw1, by rw [nudge_h]; exact hh1, ?_, ?_⟩
      · intro hcontra
        obtain ⟨q, hq⟩ := hs1j
        rw [hq] at hcontra
        cases hcontra
      · intro q hq
        exact hsome1 q hq
    · have hblk : (applyPush ov s i j a b dxa dya dxb dyb step).blocks.getD m
          blkDefault = s.blocks.getD m blkDefault := by
        rw [hb1, getD_set_ne _ j m _ _ (fun hh => hmj hh.symm),
          getD_set_ne _ i m _ _ (fun hh => hmi hh.symm)]
      obtain ⟨hw1, hh1, hnone1, hsome1⟩ := hpt1 m hm
      rw [hbsame] at hw1 hh1 hnone1
      rw [hblk, ho1]
      exact ⟨hw1, hh1, hnone1, hsome1⟩

theorem processPair_origInv (ov : OvRect) (init : List Blk) (s : SepState)
    (i j : Nat) (hij : i ≠ j) (hinv : origInv init s) :
    origInv init (processPair ov s i j) := by
  rcases processPair_spec ov s i j with heq |
    ⟨a, b, dxa, dya, dxb, dyb, step, hi, hj, _, _, _, _, _, heq⟩
  · rw [heq]; exact hinv
  · rw [heq]
    exact applyPush_origInv ov init s i j a b dxa dya dxb dyb step hij hi hj hinv

theorem sweep_origInv (ov : OvRect) (init : List Blk) (s : SepState)
    (hinv : origInv init s) : origInv init (sweep ov s) := by
  unfold sweep
  refine foldl_preserve (origInv init) _ _ _ hinv ?_
  intro t x hx ht
  have hx' : (x.1, x.2) ∈ pairsUpTo s.blocks.length := by
    rw [Prod.mk.eta]
    exact hx
  exact processPair_origInv ov init t x.1 x.2 (Nat.ne_of_lt (pairsUpTo_lt hx')) ht

theorem sepLoop_origInv (ov : OvRect) (init : List Blk) :
    ∀ (n : Nat) (s : SepState), origInv init s →
      origInv init (sepLoop ov n s) := by
  intro n
  induction n with
  | zero => intro s h; exact h
  | succ n ih =>
    intro s h
    show origInv init
      (if (sweep ov s).anyMoved = true then sepLoop ov n (sweep ov s) else sweep ov s)
    split_ifs with h1
    · exact ih _ (sweep_origInv ov init s h)
    · exact sweep_origInv ov init s h

end MangaReader

namespace MangaReader

theorem restoreBlocks_eq :
    ∀ (bs : List Blk) (os : List (Option (ℚ × ℚ))) (init : List Blk),
      bs.length = init.length → os.length = init.length →
      (∀ k, k < init.length →
        ((bs.getD k blkDefault).w = (init.getD k blkDefault).w
         ∧ (bs.getD k blkDefault).h = (init.getD k blkDefault).h
         ∧ (os.getD k none = none → bs.getD k blkDefault = init.getD k blkDefault)
         ∧ ∀ q, os.getD k none = some q →
             q = ((init.getD k blkDefault).x, (init.getD k blkDefault).y))) →
      restoreBlocks bs os = init := by
  intro bs
  induction bs with
  | nil =>
    intro os init hbl _ _
    have : init = [] := by
      cases init
      · rfl
      · simp at hbl
    subst this
    rfl
  | cons b bs ih =>
    intro os init hbl hol hpt
    cases init with
    | nil => simp at hbl
    | cons i0 irest =>
      cases os with
      | nil => simp at hol
      | cons o0 orest =>
        have hhead : restoreBlk b o0 = i0 := by
          obtain ⟨hw, hh, hnone, hsome⟩ := hpt 0 (by simp)
          simp only [List.getD_cons_zero] at hw hh hnone hsome
          cases o0 with
          | none => exact hnone rfl
          | some q =>
            have hq := hsome q rfl
            cases i0 with
            | mk ix iy iw ih2 =>
              simp only at hq
              unfold restoreBlk
              rw [hq]
              simp only at hw hh
              rw [hw, hh]
        show restoreBlk b o0 :: restoreBlocks bs orest = i0 :: irest
        rw [hhead, ih orest irest (by simpa using hbl) (by simpa using hol) ?_]
        intro k hk
        have := hpt (k + 1) (by simpa using Nat.succ_lt_succ hk)
        simpa only [List.getD_cons_succ] using this

theorem initSep_sepInv (ov : OvRect) (p : OverlayState)
    (hb : allInBounds ov p.blocks = true) : sepInv ov p.blocks (initSep p) := by
  refine ⟨rfl, List.length_replicate _ _, List.length_replicate _ _, ?_⟩
  intro k hk
  have hbk : blkInBounds ov (p.blocks.getD k blkDefault) = true := by
    rw [List.getD_eq_getElem p.blocks blkDefault hk]
    exact List.all_eq_true.mp hb _ (List.getElem_mem hk)
  refine ⟨rfl, rfl, hbk, ?_, ?_, ?_⟩
  · show |(p.blocks.getD k blkDefault).x - (p.blocks.getD k blkDefault).x| +
      |(p.blocks.getD k blkDefault).y - (p.blocks.getD k blkDefault).y| ≤
      (List.replicate p.blocks.length (0 : ℚ)).getD k 0
    rw [getD_replicate _ k 0 hk]
    simp
  · show (List.replicate p.blocks.length (0 : ℚ)).getD k 0 ≤
      (List.replicate p.blocks.length (0 : ℚ)).getD k 0
    exact le_refl _
  · show (List.replicate p.blocks.length (0 : ℚ)).getD k 0 ≤ 24
    rw [getD_replicate _ k 0 hk]
    norm_num

theorem initSep_origInv (p : OverlayState)
    (h0 : p.origs = List.replicate p.blocks.length none) :
    origInv p.blocks (initSep p) := by
  refine ⟨rfl, by show p.origs.length = _; rw [h0]; exact List.length_replicate _ _, ?_⟩
  intro k hk
  refine ⟨rfl, rfl, fun _ => rfl, ?_⟩
  intro q hq
  have hcontra : p.origs.getD k none = some q := hq
  rw [h0, getD_replicate _ k none hk] at hcontra
  cases hcontra

end MangaReader

namespace MangaReader

theorem processPair_move_bound (ov : OvRect) (s : SepState) (i j k : Nat)
    (hb : allInBounds ov s.blocks = true) :
    |((processPair ov s i j).blocks.getD k blkDefault).x -
      (s.blocks.getD k blkDefault).x| +
    |((processPair ov s i j).blocks.getD k blkDefault).y -
      (s.blocks.getD k blkDefault).y| ≤ 3 := by
  rcases processPair_spec ov s i j with heq |
    ⟨a, b, dxa, dya, dxb, dyb, step, hi, hj, hstep, hpos, hda, hdb, _, heq⟩
  · rw [heq]
    simp only [sub_self, abs_zero, add_zero]
    norm_num
  · rw [heq]
    have hstep3 : step ≤ 3 := hstep ▸ pairStepSize_le_three ov s i j a b
    have hain : blkInBounds ov a = true :=
      List.all_eq_true.mp hb a (mem_of_getElem?_eq_some hi)
    have hbin : blkInBounds ov b = true :=
      List.all_eq_true.mp hb b (mem_of_getElem?_eq_some hj)
    have hna := nudge_bounds_delta ov a dxa dya hain
    have hnb := nudge_bounds_delta ov b dxb dyb hbin
    have hb1 : (applyPush ov s i j a b dxa dya dxb dyb step).blocks
        = (s.blocks.set i (nudgeWithinOverlay ov a dxa dya)).set j
            (nudgeWithinOverlay ov b dxb dyb) := by
      simp only [applyPush, ensureSaved_blocks]
    have hjlen : j < s.blocks.length := lt_length_of_getElem? hj
    have hilen : i < s.blocks.length := lt_length_of_getElem? hi
    by_cases hkj : k = j
    · subst hkj
      rw [hb1, getD_set_self _ k _ _ (by simp only [List.length_set]; omega),
        getD_of_getElem? blkDefault hj]
      have d1 := hnb.1
      have d2 := hnb.2.1
      linarith
    · by_cases hki : k = i
      · subst hki
        rw [hb1, getD_set_ne _ j k _ _ (fun hh => hkj hh.symm),
          getD_set_self _ k _ _ (by omega), getD_of_getElem? blkDefault hi]
        have d1 := hna.1
        have d2 := hna.2.1
        linarith
      · rw [hb1, getD_set_ne _ j k _ _ (fun hh => hkj hh.symm),
          getD_set_ne _ i k _ _ (fun hh => hki hh.symm)]
        simp only [sub_self, abs_zero, add_zero]
        norm_num

theorem processPair_axis (ov : OvRect) (s : SepState) (i j : Nat) (a b : Blk)
    (hb : allInBounds ov s.blocks = true)
    (hi : s.blocks[i]? = some a) (hj : s.blocks[j]? = some b) :
    ((penetrationX (blockRect ov a) (blockRect ov b) ≤
        penetrationY (blockRect ov a) (blockRect ov b) →
      ∀ k, ((processPair ov s i j).blocks.getD k blkDefault).y =
        (s.blocks.getD k blkDefault).y)
     ∧ (penetrationY (blockRect ov a) (blockRect ov b) <
         penetrationX (blockRect ov a) (blockRect ov b) →
      ∀ k, ((processPair ov s i j).blocks.getD k blkDefault).x =
        (s.blocks.getD k blkDefault).x)) := by
  have hain : blkInBounds ov a = true :=
    List.all_eq_true.mp hb a (mem_of_getElem?_eq_some hi)
  have hbin : blkInBounds ov b = true :=
    List.all_eq_true.mp hb b (mem_of_getElem?_eq_some hj)
  have hjlen : j < s.blocks.length := lt_length_of_getElem? hj
  have hilen : i < s.blocks.length := lt_length_of_getElem? hi
  rcases processPair_spec ov s i j with heq |
    ⟨a', b', dxa, dya, dxb, dyb, step, hi', hj', hstep, hpos, hda, hdb, hax, heq⟩
  · rw [heq]
    exact ⟨fun _ k => rfl, fun _ k => rfl⟩
  · have haa : a' = a := Option.some.inj (hi' ▸ hi)
    have hbb : b' = b := Option.some.inj (hj' ▸ hj)
    rw [haa, hbb] at heq hax
    have hb1 : (applyPush ov s i j a b dxa dya dxb dyb step).blocks
        = (s.blocks.set i (nudgeWithinOverlay ov a dxa dya)).set j
            (nudgeWithinOverlay ov b dxb dyb) := by
      simp only [applyPush, ensureSaved_blocks]
    constructor
    · intro hpen k
      rcases hax with ⟨hya, hyb, _⟩ | ⟨_, _, hgt⟩
      · subst hya
        subst hyb
        rw [heq]
        by_cases hkj : k = j
        · subst hkj
          rw [hb1, getD_set_self _ k _ _ (by simp only [List.length_set]; omega),
            getD_of_getElem? blkDefault hj]
          exact nudge_id_of_inBounds_y ov b dxb hbin
        · by_cases hki : k = i
          · subst hki
            rw [hb1, getD_set_ne _ j k _ _ (fun hh => hkj hh.symm),
              getD_set_self _ k _ _ (by omega), getD_of_getElem? blkDefault hi]
            exact nudge_id_of_inBounds_y ov a dxa hain
          · rw [hb1, getD_set_ne _ j k _ _ (fun hh => hkj hh.symm),
              getD_set_ne _ i k _ _ (fun hh => hki hh.symm)]
      · exact absurd hpen (not_le.mpr hgt)
    · intro hpen k
      rcases hax with ⟨_, _, hle⟩ | ⟨hxa, hxb, _⟩
      · exact absurd hle (not_le.mpr hpen)
      · subst hxa
        subst hxb
        rw [heq]
        by_cases hkj : k = j
        · subst hkj
          rw [hb1, getD_set_self _ k _ _ (by simp only [List.length_set]; omega),
            getD_of_getElem? blkDefault hj]
          exact nudge_id_of_inBounds_x ov b dyb hbin
        · by_cases hki : k = i
          · subst hki
            rw [hb1, getD_set_ne _ j k _ _ (fun hh => hkj hh.symm),
              getD_set_self _ k _ _ (by omega), getD_of_getElem? blkDefault hi]
            exact nudge_id_of_inBounds_x ov a dya hain
          · rw [hb1, getD_set_ne _ j k _ _ (fun hh => hkj hh.symm),
              getD_set_ne _ i k _ _ (fun hh => hki hh.symm)]

end MangaReader

namespace MangaReader

/-- C5 amended: for every set of rendered blocks that ALL start inside the
overlay's 4px margin band (the counterexample shows the original,
unconditional claim fails for blocks rendered outside it, which the clamp
snaps to the band), the separation run is at most 10 sweeps (stopping
early once a sweep displaces nothing); each pair processing pushes the
overlapping pair apart along the axis of smaller penetration, moving each
member at most 3px (so at most 6px of separation per pair per sweep, split
half to each member); and no element's cumulative displacement over the
whole operation - instrumented or net - ever exceeds 24px. -/
theorem applySeparation_bounded (ov : OvRect) (p : OverlayState)
    (hb : allInBounds ov p.blocks = true) : separationClaim ov p := by
  have hsep : sepInv ov p.blocks (sepLoop ov 10 (initSep p)) :=
    sepLoop_sepInv ov p.blocks 10 (initSep p) (initSep_sepInv ov p hb)
  refine ⟨?_, ?_, ?_, ?_, ?_⟩
  · intro hne
    have hemp : p.blocks.isEmpty = false := by
      cases hpb : p.blocks with
      | nil => exact absurd hpb hne
      | cons x xs => rfl
    obtain ⟨k, hk, heq, hd⟩ := sepLoop_iterate ov 10 (initSep p)
    refine ⟨k, hk, ?_, hd⟩
    show (if p.blocks.isEmpty = true then p
      else { blocks := (sepLoop ov 10 (initSep p)).blocks
             origs := (sepLoop ov 10 (initSep p)).origs } : OverlayState) = _
    rw [hemp]
    simp only [Bool.false_eq_true, if_false]
    rw [heq]
  · intro k hk
    by_cases hemp : p.blocks.isEmpty = true
    · rw [List.isEmpty_iff.mp hemp] at hk
      simp at hk
    · have happ : (applySeparation ov p).blocks =
          (sepLoop ov 10 (initSep p)).blocks := by
        show (if p.blocks.isEmpty = true then p
          else { blocks := (sepLoop ov 10 (initSep p)).blocks
                 origs := (sepLoop ov 10 (initSep p)).origs } : OverlayState).blocks = _
        rw [if_neg hemp]
      rw [happ]
      obtain ⟨_, _, _, hpt⟩ := hsep
      obtain ⟨_, _, _, hnet, ham, hm24⟩ := hpt k hk
      linarith
  · intro k hk
    obtain ⟨_, _, _, hpt⟩ := hsep
    obtain ⟨_, _, _, _, ham, hm24⟩ := hpt k hk
    linarith
  · intro s i j k hball
    exact processPair_move_bound ov s i j k hball
  · intro s i j a b hball hi hj
    exact processPair_axis ov s i j a b hball hi hj

/-- Concrete instantiation of the C5 theorem: two overlapping 10x10 blocks
inside a 100x100 overlay. -/
theorem applySeparation_bounded_witness :
    allInBounds exOv exOverlay.blocks = true ∧ separationClaim exOv exOverlay :=
  ⟨by norm_num [allInBounds, blkInBounds, exOv, exOverlay],
   applySeparation_bounded exOv exOverlay
     (by norm_num [allInBounds, blkInBounds, exOv, exOverlay])⟩

/-- C6: Starting from a state with no saved originals, running the
separation pass and then disabling separation restores every block to
exactly its pre-separation position and clears the saved-originals map;
blocks for which no original was recorded were never displaced by the run
in the first place. -/
theorem restoreOriginalPositions_exact (ov : OvRect) (p : OverlayState)
    (h0 : p.origs = List.replicate p.blocks.length none) : restoreClaim ov p := by
  have horig : origInv p.blocks (sepLoop ov 10 (initSep p)) :=
    sepLoop_origInv ov p.blocks 10 (initSep p) (initSep_origInv p h0)
  by_cases hemp : p.blocks.isEmpty = true
  · have hpb : p.blocks = [] := List.isEmpty_iff.mp hemp
    have happ : applySeparation ov p = p := by
      show (if p.blocks.isEmpty = true then p
        else { blocks := (sepLoop ov 10 (initSep p)).blocks
               origs := (sepLoop ov 10 (initSep p)).origs } : OverlayState) = p
      rw [if_pos hemp]
    refine ⟨?_, ?_, ?_⟩
    · rw [happ]
      show restoreBlocks p.blocks p.origs = p.blocks
      rw [hpb, h0, hpb]
      rfl
    · rw [happ]
      rfl
    · intro k hk _
      rw [happ]
  · have happ : applySeparation ov p =
        { blocks := (sepLoop ov 10 (initSep p)).blocks
          origs := (sepLoop ov 10 (initSep p)).origs } := by
      show (if p.blocks.isEmpty = true then p
        else { blocks := (sepLoop ov 10 (initSep p)).blocks
               origs := (sepLoop ov 10 (initSep p)).origs } : OverlayState) = _
      rw [if_neg hemp]
    obtain ⟨hbl, hol, hpt⟩ := horig
    refine ⟨?_, ?_, ?_⟩
    · rw [happ]
      show restoreBlocks (sepLoop ov 10 (initSep p)).blocks
        (sepLoop ov 10 (initSep p)).origs = p.blocks
      exact restoreBlocks_eq _ _ _ hbl hol hpt
    · rw [happ]
      show List.replicate (sepLoop ov 10 (initSep p)).blocks.length none =
        List.replicate p.blocks.length none
      rw [hbl]
    · intro k hk hnone
      rw [happ] at hnone ⊢
      exact (hpt k hk).2.2.1 hnone

/-- Concrete instantiation of the C6 theorem: the two-block overlay with an
empty saved-originals map. -/
theorem restoreOriginalPositions_exact_witness :
    exOverlay.origs = List.replicate exOverlay.blocks.length none ∧
    restoreClaim exOv exOverlay :=
  ⟨by decide, restoreOriginalPositions_exact exOv exOverlay (by decide)⟩

end MangaReader

namespace MangaReader

/-- C5 counterexample: the claim is false for blocks that start outside the
overlay's 4px margin band (which the layout step does produce: a block's
style position can be negative near the image edge). In `exOverlayOffX` the
single pair processing that constitutes the run's first sweep snaps element
0 from x = -50 to the margin x = 4: it moves 54px in one pair push in one
sweep - more than the claimed 6px per pair per sweep and more than the
claimed 24px whole-operation budget - the run records 54px of cumulative
travel for it and continues; and in `exOverlayOffY` a push chosen along the
x axis (the axis of smaller penetration) nevertheless changes the y
coordinate, because the clamp snaps it into the band. -/
theorem applySeparation_clamp_counterexample :
    sweep exOv (initSep exOverlayOffX) = processPair exOv (initSep exOverlayOffX) 0 1
    ∧ exOverlayOffX.blocks.getD 0 blkDefault = (⟨-50, 20, 10, 10⟩ : Blk)
    ∧ (processPair exOv (initSep exOverlayOffX) 0 1).blocks.getD 0 blkDefault =
        (⟨4, 20, 10, 10⟩ : Blk)
    ∧ ¬(|((processPair exOv (initSep exOverlayOffX) 0 1).blocks.getD 0 blkDefault).x -
          (exOverlayOffX.blocks.getD 0 blkDefault).x| +
        |((processPair exOv (initSep exOverlayOffX) 0 1).blocks.getD 0 blkDefault).y -
          (exOverlayOffX.blocks.getD 0 blkDefault).y| ≤ 6)
    ∧ ¬(|((processPair exOv (initSep exOverlayOffX) 0 1).blocks.getD 0 blkDefault).x -
          (exOverlayOffX.blocks.getD 0 blkDefault).x| +
        |((processPair exOv (initSep exOverlayOffX) 0 1).blocks.getD 0 blkDefault).y -
          (exOverlayOffX.blocks.getD 0 blkDefault).y| ≤ 24)
    ∧ (processPair exOv (initSep exOverlayOffX) 0 1).actual.getD 0 0 = 54
    ∧ (sweep exOv (initSep exOverlayOffX)).anyMoved = true
    ∧ sepLoop exOv 10 (initSep exOverlayOffX) =
        sepLoop exOv 9 (sweep exOv (initSep exOverlayOffX))
    ∧ penetrationX (blockRect exOv ⟨20, -50, 10, 10⟩) (blockRect exOv ⟨24, -50, 10, 10⟩) ≤
        penetrationY (blockRect exOv ⟨20, -50, 10, 10⟩) (blockRect exOv ⟨24, -50, 10, 10⟩)
    ∧ ((processPair exOv (initSep exOverlayOffY) 0 1).blocks.getD 0 blkDefault).y ≠
        (exOverlayOffY.blocks.getD 0 blkDefault).y := by
  have haX : (initSep exOverlayOffX).blocks[0]? = some (⟨-50, 20, 10, 10⟩ : Blk) := rfl
  have hbX : (initSep exOverlayOffX).blocks[1]? = some (⟨-46, 20, 10, 10⟩ : Blk) := rfl
  have hovX : rectsOverlap (blockRect exOv ⟨-50, 20, 10, 10⟩)
      (blockRect exOv ⟨-46, 20, 10, 10⟩) = true := by
    norm_num [rectsOverlap, blockRect, Rect.right, Rect.bottom, exOv]
  have hstepX : pairStepSize exOv (initSep exOverlayOffX) 0 1 ⟨-50, 20, 10, 10⟩
      ⟨-46, 20, 10, 10⟩ = 3 := by
    norm_num [pairStepSize, penetrationX, penetrationY, blockRect, Rect.right,
      Rect.bottom, exOv, initSep, exOverlayOffX, List.getD]
  have hnleX : ¬ pairStepSize exOv (initSep exOverlayOffX) 0 1 ⟨-50, 20, 10, 10⟩
      ⟨-46, 20, 10, 10⟩ ≤ 0 := by
    rw [hstepX]
    norm_num
  have haxX : penetrationX (blockRect exOv ⟨-50, 20, 10, 10⟩)
      (blockRect exOv ⟨-46, 20, 10, 10⟩) ≤
      penetrationY (blockRect exOv ⟨-50, 20, 10, 10⟩)
        (blockRect exOv ⟨-46, 20, 10, 10⟩) := by
    norm_num [penetrationX, penetrationY, blockRect, Rect.right, Rect.bottom, exOv]
  have hdirX : (blockRect exOv ⟨-46, 20, 10, 10⟩).left +
      (blockRect exOv ⟨-46, 20, 10, 10⟩).width / 2 ≥
      (blockRect exOv ⟨-50, 20, 10, 10⟩).left +
        (blockRect exOv ⟨-50, 20, 10, 10⟩).width / 2 := by
    norm_num [blockRect, exOv]
  have hredX : processPair exOv (initSep exOverlayOffX) 0 1 =
      applyPush exOv (initSep exOverlayOffX) 0 1 ⟨-50, 20, 10, 10⟩
        ⟨-46, 20, 10, 10⟩ (-(1 : ℚ) * 3) 0 ((1 : ℚ) * 3) 0 3 := by
    unfold processPair
    rw [haX, hbX]
    simp only [hovX, if_true, if_neg hnleX, if_pos haxX, if_pos hdirX, hstepX]
    norm_num
  have hblkX : (processPair exOv (initSep exOverlayOffX) 0 1).blocks.getD 0
      blkDefault = nudgeWithinOverlay exOv ⟨-50, 20, 10, 10⟩ (-(1 : ℚ) * 3) 0 := by
    rw [hredX]
    have hb1 : (applyPush exOv (initSep exOverlayOffX) 0 1 ⟨-50, 20, 10, 10⟩
        ⟨-46, 20, 10, 10⟩ (-(1 : ℚ) * 3) 0 ((1 : ℚ) * 3) 0 3).blocks =
        ((initSep exOverlayOffX).blocks.set 0
          (nudgeWithinOverlay exOv ⟨-50, 20, 10, 10⟩ (-(1 : ℚ) * 3) 0)).set 1
            (nudgeWithinOverlay exOv ⟨-46, 20, 10, 10⟩ ((1 : ℚ) * 3) 0) := by
      simp only [applyPush, ensureSaved_blocks]
    rw [hb1, getD_set_ne _ 1 0 _ _ (by omega),
      getD_set_self _ 0 _ _ (by norm_num [initSep, exOverlayOffX])]
  have hvalX : nudgeWithinOverlay exOv ⟨-50, 20, 10, 10⟩ (-(1 : ℚ) * 3) 0 =
      (⟨4, 20, 10, 10⟩ : Blk) := by
    norm_num [nudgeWithinOverlay, exOv]
  have hactX : (processPair exOv (initSep exOverlayOffX) 0 1).actual.getD 0 0 = 54 := by
    rw [hredX]
    have ha1 : (applyPush exOv (initSep exOverlayOffX) 0 1 ⟨-50, 20, 10, 10⟩
        ⟨-46, 20, 10, 10⟩ (-(1 : ℚ) * 3) 0 ((1 : ℚ) * 3) 0 3).actual =
        bumpAt (bumpAt (initSep exOverlayOffX).actual 0
          (|(nudgeWithinOverlay exOv ⟨-50, 20, 10, 10⟩ (-(1 : ℚ) * 3) 0).x -
              (⟨-50, 20, 10, 10⟩ : Blk).x| +
           |(nudgeWithinOverlay exOv ⟨-50, 20, 10, 10⟩ (-(1 : ℚ) * 3) 0).y -
              (⟨-50, 20, 10, 10⟩ : Blk).y|)) 1
          (|(nudgeWithinOverlay exOv ⟨-46, 20, 10, 10⟩ ((1 : ℚ) * 3) 0).x -
              (⟨-46, 20, 10, 10⟩ : Blk).x| +
           |(nudgeWithinOverlay exOv ⟨-46, 20, 10, 10⟩ ((1 : ℚ) * 3) 0).y -
              (⟨-46, 20, 10, 10⟩ : Blk).y|) := by
      simp only [applyPush, ensureSaved_actual]
    rw [ha1, bumpAt_getD_ne _ 1 0 _ (by omega),
      bumpAt_getD_self _ 0 _ (by norm_num [initSep, exOverlayOffX]), hvalX]
    norm_num [initSep, exOverlayOffX, List.getD]
  have hswX : sweep exOv (initSep exOverlayOffX) =
      processPair exOv (initSep exOverlayOffX) 0 1 := rfl
  have hanyX : (sweep exOv (initSep exOverlayOffX)).anyMoved = true := by
    rw [hswX, hredX]
    rfl
  have haY : (initSep exOverlayOffY).blocks[0]? = some (⟨20, -50, 10, 10⟩ : Blk) := rfl
  have hbY : (initSep exOverlayOffY).blocks[1]? = some (⟨24, -50, 10, 10⟩ : Blk) := rfl
  have hovY : rectsOverlap (blockRect exOv ⟨20, -50, 10, 10⟩)
      (blockRect exOv ⟨24, -50, 10, 10⟩) = true := by
    norm_num [rectsOverlap, blockRect, Rect.right, Rect.bottom, exOv]
  have hstepY : pairStepSize exOv (initSep exOverlayOffY) 0 1 ⟨20, -50, 10, 10⟩
      ⟨24, -50, 10, 10⟩ = 3 := by
    norm_num [pairStepSize, penetrationX, penetrationY, blockRect, Rect.right,
      Rect.bottom, exOv, initSep, exOverlayOffY, List.getD]
  have hnleY : ¬ pairStepSize exOv (initSep exOverlayOffY) 0 1 ⟨20, -50, 10, 10⟩
      ⟨24, -50, 10, 10⟩ ≤ 0 := by
    rw [hstepY]
    norm_num
  have haxY : penetrationX (blockRect exOv ⟨20, -50, 10, 10⟩)
      (blockRect exOv ⟨24, -50, 10, 10⟩) ≤
      penetrationY (blockRect exOv ⟨20, -50, 10, 10⟩)
        (blockRect exOv ⟨24, -50, 10, 10⟩) := by
    norm_num [penetrationX, penetrationY, blockRect, Rect.right, Rect.bottom, exOv]
  have hdirY : (blockRect exOv ⟨24, -50, 10, 10⟩).left +
      (blockRect exOv ⟨24, -50, 10, 10⟩).width / 2 ≥
      (blockRect exOv ⟨20, -50, 10, 10⟩).left +
        (blockRect exOv ⟨20, -50, 10, 10⟩).width / 2 := by
    norm_num [blockRect, exOv]
  have hredY : processPair exOv (initSep exOverlayOffY) 0 1 =
      applyPush exOv (initSep exOverlayOffY) 0 1 ⟨20, -50, 10, 10⟩
        ⟨24, -50, 10, 10⟩ (-(1 : ℚ) * 3) 0 ((1 : ℚ) * 3) 0 3 := by
    unfold processPair
    rw [haY, hbY]
    simp only [hovY, if_true, if_neg hnleY, if_pos haxY, if_pos hdirY, hstepY]
    norm_num
  have hblkY : (processPair exOv (initSep exOverlayOffY) 0 1).blocks.getD 0
      blkDefault = nudgeWithinOverlay exOv ⟨20, -50, 10, 10⟩ (-(1 : ℚ) * 3) 0 := by
    rw [hredY]
    have hb1 : (applyPush exOv (initSep exOverlayOffY) 0 1 ⟨20, -50, 10, 10⟩
        ⟨24, -50, 10, 10⟩ (-(1 : ℚ) * 3) 0 ((1 : ℚ) * 3) 0 3).blocks =
        ((initSep exOverlayOffY).blocks.set 0
          (nudgeWithinOverlay exOv ⟨20, -50, 10, 10⟩ (-(1 : ℚ) * 3) 0)).set 1
            (nudgeWithinOverlay exOv ⟨24, -50, 10, 10⟩ ((1 : ℚ) * 3) 0) := by
      simp only [applyPush, ensureSaved_blocks]
    rw [hb1, getD_set_ne _ 1 0 _ _ (by omega),
      getD_set_self _ 0 _ _ (by norm_num [initSep, exOverlayOffY])]
  have hvalY : nudgeWithinOverlay exOv ⟨20, -50, 10, 10⟩ (-(1 : ℚ) * 3) 0 =
      (⟨17, 4, 10, 10⟩ : Blk) := by
    norm_num [nudgeWithinOverlay, exOv]
  refine ⟨hswX, rfl, by rw [hblkX, hvalX], ?_, ?_, hactX, hanyX, ?_, haxY, ?_⟩
  · rw [hblkX, hvalX]
    norm_num [exOverlayOffX, blkDefault, List.getD]
  · rw [hblkX, hvalX]
    norm_num [exOverlayOffX, blkDefault, List.getD]
  · show (if (sweep exOv (initSep exOverlayOffX)).anyMoved = true then
      sepLoop exOv 9 (sweep exOv (initSep exOverlayOffX))
      else sweep exOv (initSep exOverlayOffX)) = _
    rw [if_pos hanyX]
  · rw [hblkY, hvalY]
    norm_num [exOverlayOffY, blkDefault, List.getD]

end MangaReader
